import Mathlib

set_option maxRecDepth 8000
set_option maxHeartbeats 1600000

/-!
Shallow embedding of the marketplace-intelligence question-to-SQL pipeline
(src/api/sql_safety.py, src/api/main.py, src/api/providers.py).

Strings are modelled as lists of Unicode code points (`List Nat`), which is
what Python strings are sequences of.  Python `str.strip`, `str.lower`,
`str.find`, `in`, `startswith`, `str.split`, `str.isdigit` and the
word-boundary regular-expression scan of `sql_safety.sanitize` are
translated character by character.  External collaborators (the completion
provider, the JSON parser of the standard library, the execution engine)
are oracle parameters.
-/

/-- Strings as sequences of code points. -/
abbrev Str := List Nat

/-- Code points of a Lean string literal, used to transcribe the literals of
the Python source. -/
def strL (s : String) : Str := s.data.map Char.toNat

/-- Python whitespace recognised by `str.strip` and `str.split` (ASCII
subset, which covers every string the pipeline manipulates): space, tab,
newline, carriage return, vertical tab, form feed. -/
def isPySpace (c : Nat) : Bool :=
  c = 32 || c = 9 || c = 10 || c = 13 || c = 11 || c = 12

/-- The statement terminator stripped by `strip(";")`. -/
def isSemi (c : Nat) : Bool := c = 59

/-- ASCII lower-casing, as `str.lower` acts on the ASCII strings involved. -/
def lowerChar (c : Nat) : Nat := if 65 ≤ c && c ≤ 90 then c + 32 else c

/-- `str.lower` on a whole string. -/
def lowerStr (s : Str) : Str := s.map lowerChar

/-- Word characters of the regular-expression class used by the blocked
keyword scan of `sanitize` (the boundary assertion of the pattern):
letters, digits, underscore. -/
def isWordChar (c : Nat) : Bool :=
  (97 ≤ c && c ≤ 122) || (65 ≤ c && c ≤ 90) || (48 ≤ c && c ≤ 57) || c = 95

/-- ASCII decimal digits, as `str.isdigit` classifies the tokens involved. -/
def isDigitChar (c : Nat) : Bool := 48 ≤ c && c ≤ 57

/-- Drop the trailing run of characters satisfying `P` (the right half of a
Python `strip`). -/
def dropTrailing (P : Nat → Bool) (l : Str) : Str :=
  (l.reverse.dropWhile P).reverse

/-- Python `str.strip()` (no argument): remove leading and trailing
whitespace. -/
def pyStrip (l : Str) : Str :=
  dropTrailing isPySpace (l.dropWhile isPySpace)

/-- Python `str.strip(";")`: remove leading and trailing semicolons. -/
def stripSemi (l : Str) : Str :=
  dropTrailing isSemi (l.dropWhile isSemi)

/-- The compound `sql.strip().strip(";")` applied by `sanitize` and by
`enforce_table` to their argument. -/
def restrip (l : Str) : Str := stripSemi (pyStrip l)

/-- Auxiliary scan for `findSub`, counting the current offset. -/
def findSubAux (pat : Str) : Str → Nat → Option Nat
  | [], i => if pat.isEmpty then some i else none
  | c :: rest, i =>
    if pat.isPrefixOf (c :: rest) then some i else findSubAux pat rest (i + 1)

/-- Python `hay.find(pat)`: index of the leftmost occurrence, if any. -/
def findSub (pat hay : Str) : Option Nat := findSubAux pat hay 0

/-- Python `pat in hay` (substring containment). -/
def containsSub (hay pat : Str) : Bool := (findSub pat hay).isSome

/-- A word-boundary position of the scanning regular expression: start of
string or a non-word previous character (every scanned keyword begins and
ends with a letter). -/
def boundaryOk : Option Nat → Bool
  | none => true
  | some c => !isWordChar c

/-- Does some keyword of `kws` match at the head of `hay` with a word
boundary immediately after it? -/
def kwMatchesHere (kws : List Str) (hay : Str) : Bool :=
  kws.any fun kw => kw.isPrefixOf hay && boundaryOk (hay.drop kw.length).head?

/-- Scan of `re.search` for alternatives bracketed by word boundaries:
`prev` is the character preceding the current position. -/
def scanKws (kws : List Str) (prev : Option Nat) : Str → Bool
  | [] => false
  | c :: rest =>
    (boundaryOk prev && kwMatchesHere kws (c :: rest)) || scanKws kws (some c) rest

/-- The blocked keywords of `sanitize` (the alternation of its regular
expression, scanned over the lower-cased statement). -/
def BLOCKED : List Str :=
  [strL "drop", strL "delete", strL "update", strL "insert",
   strL "merge", strL "alter", strL "create", strL "truncate",
   strL "grant", strL "revoke", strL "vacuum", strL "attach",
   strL "copy"]

/-- `re.search(r"(?is)\b(drop|...)\b", low)` of `sanitize`, as a Boolean. -/
def hasBlocked (low : Str) : Bool := scanKws BLOCKED none low

/-- Standalone-word occurrence of a single pattern (used to state what a
`LIMIT` clause is). -/
def hasStandalone (l pat : Str) : Bool := scanKws [pat] none l

/-- `TABLE = "daily_product_sales"` of src/api/sql_safety.py. -/
def TABLE : Str := strL "daily_product_sales"

/-- The clause-boundary markers before which `enforce_table` inserts the
canonical table. -/
def cutKws : List Str :=
  [strL " where ", strL "\nwhere ", strL " group ", strL "\ngroup ",
   strL " order ", strL "\norder ", strL " limit ", strL "\nlimit "]

/-- The text `enforce_table` splices in: `f" FROM daily_product_sales "`. -/
def insFrom : Str := strL " FROM daily_product_sales "

/-- `cut = len(s); for kw in [...]: p = low.find(kw); if p != -1: cut = min(cut, p)`. -/
def cutOf (low : Str) (len : Nat) : Nat :=
  cutKws.foldl
    (fun acc kw => match findSub kw low with
      | some p => min acc p
      | none => acc)
    len

/-- `enforce_table` of src/api/sql_safety.py: return the re-stripped
statement if it already mentions the canonical table (lower-cased check),
else splice ` FROM daily_product_sales ` in front of the earliest clause
boundary (or at the end) and strip the result. -/
def enforce_table (sql : Str) : Str :=
  if containsSub (lowerStr (restrip sql)) TABLE then restrip sql
  else
    pyStrip
      ((restrip sql).take (cutOf (lowerStr (restrip sql)) (restrip sql).length)
        ++ insFrom
        ++ (restrip sql).drop (cutOf (lowerStr (restrip sql)) (restrip sql).length))

/-- The two rejections `sanitize` can raise (both `ValueError` in the code;
the specification groups them as the unsafe-statement rejection). -/
inductive SanitizeError where
  /-- `"Only SELECT/CTE queries are allowed."` -/
  | notSelectWith
  /-- `"Dangerous statement blocked."` -/
  | dangerous
deriving DecidableEq, Repr

/-- `low.startswith("select") or low.startswith("with")`. -/
def startsSelectWith (low : Str) : Bool :=
  (strL "select").isPrefixOf low || (strL "with").isPrefixOf low

/-- The text appended when no `limit` substring is present: `" LIMIT 200"`. -/
def app200 : Str := strL " LIMIT 200"

/-- `sanitize` of src/api/sql_safety.py.  Order of the steps follows the
code: strip, prefix check, blocked-keyword scan, `enforce_table`, then
append ` LIMIT 200` when the lower-cased *stripped input* lacks the
substring `limit`. -/
def sanitize (sql : Str) : Except SanitizeError Str :=
  if !startsSelectWith (lowerStr (restrip sql)) then .error .notSelectWith
  else if hasBlocked (lowerStr (restrip sql)) then .error .dangerous
  else if containsSub (lowerStr (restrip sql)) (strL "limit") then
    .ok (enforce_table (restrip sql))
  else
    .ok (enforce_table (restrip sql) ++ app200)

/-- The single-quote code point, used to transcribe SQL literals. -/
def qc : Nat := 39

/-- A single-quoted piece: `sqt s` transcribes the Python text `'s'`. -/
def sqt (s : String) : Str := qc :: strL s ++ [qc]

/-- `CATEGORY_TOKENS` of src/api/main.py. -/
def CATEGORY_TOKENS : List Str :=
  [strL "electronics", strL "home", strL "beauty", strL "sports", strL "toys"]

/-- `QUARTER_WINDOWS` of src/api/main.py, in insertion order (the order the
generator iterates the dictionary keys). -/
def QUARTER_WINDOWS : List (Str × Str × Str) :=
  [(strL "Q1", strL "2024-01-01", strL "2024-03-31"),
   (strL "Q2", strL "2024-04-01", strL "2024-06-30"),
   (strL "Q3", strL "2024-07-01", strL "2024-09-30"),
   (strL "Q4", strL "2024-10-01", strL "2024-12-31")]

/-- Worker for `pySplit`: `acc` is the current token, reversed. -/
def pySplitAux : Str → Str → List Str
  | [], acc => if acc.isEmpty then [] else [acc.reverse]
  | c :: rest, acc =>
    if isPySpace c then
      (if acc.isEmpty then pySplitAux rest [] else acc.reverse :: pySplitAux rest [])
    else pySplitAux rest (c :: acc)

/-- Python `q.split()`: split on whitespace runs, no empty tokens. -/
def pySplit (l : Str) : List Str := pySplitAux l []

/-- Python `tok.isdigit()` on the ASCII tokens involved: nonempty and all
decimal digits. -/
def isDigitTok (t : Str) : Bool := !t.isEmpty && t.all isDigitChar

/-- Python `int(tok)` on a digit token. -/
def parseNat (t : Str) : Nat := t.foldl (fun n c => n * 10 + (c - 48)) 0

/-- Fuel-driven decimal printer (worker for `natRepr`). -/
def natReprAux : Nat → Nat → Str
  | 0, _ => []
  | fuel + 1, n => if n < 10 then [48 + n] else natReprAux fuel (n / 10) ++ [48 + n % 10]

/-- Python `str(n)` for a nonnegative integer: decimal digits. -/
def natRepr (n : Nat) : Str := natReprAux (n + 1) n

/-- The row bound of `_fallback_sql_from_question`: first whitespace token
of the question that `isdigit`, parsed; default 5. -/
def topnOf (q : Str) : Nat :=
  match (pySplit q).find? isDigitTok with
  | some t => parseNat t
  | none => 5

/-- `next((c for c in CATEGORY_TOKENS if c in ql), None)`. -/
def categoryOf (ql : Str) : Option Str :=
  CATEGORY_TOKENS.find? fun c => containsSub ql c

/-- `next((qt for qt in QUARTER_WINDOWS if qt.lower() in ql), None)`, kept
with the window bounds of the matched key. -/
def quarterOf (ql : Str) : Option (Str × Str × Str) :=
  QUARTER_WINDOWS.find? fun p => containsSub ql (lowerStr p.1)

/-- The `where_clauses` list of `_fallback_sql_from_question`: an optional
category predicate followed by an optional date-range predicate. -/
def whereClausesOf (q : Str) : List Str :=
  (match categoryOf (lowerStr q) with
   | some c => [strL "category = " ++ qc :: c ++ [qc]]
   | none => []) ++
  (match quarterOf (lowerStr q) with
   | some p =>
     [strL "CAST(day AS DATE) BETWEEN DATE " ++ qc :: p.2.1 ++ [qc]
       ++ strL " AND DATE " ++ qc :: p.2.2 ++ [qc]]
   | none => [])

/-- Python `sep.join(parts)`. -/
def joinSep (sep : Str) : List Str → Str
  | [] => []
  | [x] => x
  | x :: y :: xs => x ++ sep ++ joinSep sep (y :: xs)

/-- `where_sql = f"WHERE ..." if where_clauses else ""`. -/
def whereSqlOf (q : Str) : Str :=
  if (whereClausesOf q).isEmpty then []
  else strL "WHERE " ++ joinSep (strL " AND ") (whereClausesOf q)

/-- `_fallback_sql_from_question` of src/api/main.py. -/
def fallback_sql_from_question (q : Str) : Str :=
  strL "SELECT product_title, category, SUM(units) AS units, SUM(revenue) AS revenue\n"
    ++ strL "FROM daily_product_sales\n"
    ++ whereSqlOf q ++ strL "\n"
    ++ strL "GROUP BY product_title, category\n"
    ++ strL "ORDER BY revenue DESC\n"
    ++ strL "LIMIT " ++ natRepr (topnOf q) ++ strL ";"

/-- `_is_sql` of src/api/main.py: `text.strip().lower().startswith(("select", "with"))`
written as the two explicit checks the code performs. -/
def is_sql (t : Str) : Bool := startsSelectWith (lowerStr (pyStrip t))

/-- `_generate_sql_from_question` of src/api/main.py.  `modelSql` is the
oracle outcome of the `try` block (provider call, extraction, sanitization
and nonemptiness check): `some sql` when the model path produced the
sanitized statement `sql`, `none` when any of those steps raised and the
deterministic fallback is substituted (flagged `True`). -/
def generate_sql_from_question (q : Str) (modelSql : Option Str) :
    Except SanitizeError (Str × Bool) :=
  match modelSql with
  | some sql => .ok (sql, false)
  | none =>
    match sanitize (fallback_sql_from_question q) with
    | .ok s => .ok (s, true)
    | .error e => .error e

/-- Python values produced by parsing a review response (the subset the
pipeline builds or compares). -/
inductive PyVal where
  | pstr (s : Str)
  | pbool (b : Bool)
  | pnull
  | pdict (fields : List (Str × PyVal))

/-- Keys of a dict value (empty for non-dicts). -/
def pyKeys : PyVal → List Str
  | .pdict fs => fs.map Prod.fst
  | _ => []

/-- Code point of the opening brace. -/
def lbrace : Nat := 123

/-- Code point of the closing brace. -/
def rbrace : Nat := 125

/-- The fence opener `extract_json` looks for first. -/
def fenceTag : Str := strL "```json"

/-- The closing fence. -/
def fenceClose : Str := strL "```"

/-- Skip a whitespace run (the deterministic effect of a greedy run of the
whitespace class followed by a non-whitespace literal). -/
def skipWs (l : Str) : Str := l.dropWhile isPySpace

/-- Lazy group scan of the fenced pattern: find the earliest closing brace
followed by optional whitespace and the closing fence; `acc` holds the
group content read so far, reversed. -/
def fencedInner (acc : Str) : Str → Option Str
  | [] => none
  | c :: rest =>
    if c = rbrace && fenceClose.isPrefixOf (skipWs rest) then
      some (lbrace :: (acc.reverse ++ [rbrace]))
    else fencedInner (c :: acc) rest

/-- Try to complete the fenced-JSON match at the current position. -/
def fencedTry (hay : Str) : Option Str :=
  if fenceTag.isPrefixOf hay then
    match skipWs (hay.drop fenceTag.length) with
    | c :: rest => if c = lbrace then fencedInner [] rest else none
    | [] => none
  else none

/-- Leftmost match of the fenced-JSON pattern of `extract_json`. -/
def fencedJson : Str → Option Str
  | [] => none
  | c :: rest =>
    match fencedTry (c :: rest) with
    | some g => some g
    | none => fencedJson rest

/-- Index of the last occurrence of a code point. -/
def lastIdxOf (c : Nat) (l : Str) : Option Nat :=
  (findSub [c] l.reverse).map fun p => l.length - 1 - p

/-- Leftmost-greedy match of the dotall pattern for a brace span: from the
first opening brace to the last closing brace, when the latter comes
after the former. -/
def braceSpan (hay : Str) : Option Str :=
  match findSub [lbrace] hay, lastIdxOf rbrace hay with
  | some i, some j => if i < j then some ((hay.drop i).take (j - i + 1)) else none
  | _, _ => none

/-- `extract_json` of src/api/providers.py.  `loads` is the JSON parser of
the standard library, an external collaborator: `none` models a raised
`json.JSONDecodeError`.  On parse failure the function returns the
single-key dict holding the raw text. -/
def extract_json (loads : Str → Option PyVal) (text : Str) : PyVal :=
  match loads (match braceSpan (match fencedJson text with
                                | some g => g
                                | none => text) with
               | some m => m
               | none => match fencedJson text with
                         | some g => g
                         | none => text) with
  | some v => v
  | none => .pdict [(strL "raw", .pstr text)]

/-- The failures the `/execute` route can surface to its caller. -/
inductive PipelineError (ε γ : Type) where
  | emptyQuery
  | sanitizeErr (e : SanitizeError)
  | execErr (e : ε)
  | reviewErr (e : γ)

/-- The successful `/execute` response body. -/
structure ExecOut (ρ : Type) where
  sql : Str
  rows : ρ
  review : PyVal
  chart : Option PyVal

/-- `_review_sql_payload` of src/api/main.py: call the review model (the
oracle `revLLM`, which may raise a provider error) and run `extract_json`
on its text.  The empty question is replaced by a placeholder. -/
def review_sql_payload {γ : Type} (revLLM : Str → Str → Except γ Str)
    (loads : Str → Option PyVal) (question sql : Str) : Except γ PyVal :=
  match revLLM (if (pyStrip question).isEmpty then strL "Direct SQL review" else question)
      sql with
  | .ok txt => .ok (extract_json loads txt)
  | .error e => .error e

/-- `execute` of src/api/main.py, instrumented with the list of statements
handed to the execution engine, in order.  `execO` is the execution
adapter, `revLLM` the review-model call, `loads` the JSON parser,
`chartO` the (never-failing) chart advisor. -/
def executeT {ε ρ γ : Type} (q : Str) (modelSql : Option Str)
    (execO : Str → Except ε ρ) (revLLM : Str → Str → Except γ Str)
    (loads : Str → Option PyVal) (chartO : ρ → Option PyVal) :
    Except (PipelineError ε γ) (ExecOut ρ) × List Str :=
  if (pyStrip q).isEmpty then (.error .emptyQuery, [])
  else
    match (if is_sql q then (sanitize q).map (fun s => (s, false))
           else generate_sql_from_question q modelSql) with
    | .error e => (.error (.sanitizeErr e), [])
    | .ok (sql, fb) =>
      match execO sql with
      | .ok rows =>
        match review_sql_payload revLLM loads
            (if is_sql q then strL "Direct SQL execution" else q) sql with
        | .error g => (.error (.reviewErr g), [sql])
        | .ok verdict => (.ok ⟨sql, rows, verdict, chartO rows⟩, [sql])
      | .error exc =>
        if !is_sql q && !fb then
          match sanitize (fallback_sql_from_question q) with
          | .error e => (.error (.sanitizeErr e), [sql])
          | .ok fsql =>
            match execO fsql with
            | .ok rows =>
              match review_sql_payload revLLM loads q fsql with
              | .error g => (.error (.reviewErr g), [sql, fsql])
              | .ok verdict => (.ok ⟨fsql, rows, verdict, chartO rows⟩, [sql, fsql])
            | .error e2 => (.error (.execErr e2), [sql, fsql])
        else (.error (.execErr exc), [sql])

/-- Last character of a list, or `prev` when the list is empty (left
word-boundary bookkeeping for standalone occurrences). -/
def lastOr (prev : Option Nat) : Str → Option Nat
  | [] => prev
  | c :: rest => lastOr (some c) rest

/-- A standalone (word-bounded) occurrence of `pat` in `hay`, with `prev`
the character just before `hay`. -/
@[reducible] def StandaloneFrom (prev : Option Nat) (hay pat : Str) : Prop :=
  ∃ a b, hay = a ++ pat ++ b ∧ boundaryOk (lastOr prev a) = true
    ∧ boundaryOk b.head? = true

/-- A standalone occurrence of `pat` in `hay`: what the word-boundary
regular expression `\b pat \b` matches. -/
@[reducible] def Standalone (hay pat : Str) : Prop := StandaloneFrom none hay pat

/-- The letters that follow the leading whitespace of every clause-boundary
marker of `enforce_table`. -/
def wgol (c : Nat) : Bool := c = 119 || c = 103 || c = 111 || c = 108

/-- A text is insertion-safe when no whitespace character inside it can
begin a clause-boundary marker: every whitespace character is followed by
something other than `w`, `g`, `o`, `l`, and the last character is not
whitespace. -/
def wsSafe : Str → Bool
  | [] => true
  | [c] => !isPySpace c
  | c1 :: c2 :: r => (!isPySpace c1 || !wgol c2) && wsSafe (c2 :: r)

/-- `date_trunc(<q>unit<q>, <q>date<q>)` — the call shape of the claimed
date-literal rewrite. -/
def dtCall (unit d : Str) : Str :=
  strL "date_trunc(" ++ qc :: unit ++ [qc] ++ strL ", " ++ qc :: d ++ [qc] ++ strL ")"

/-- Whitespace squeezer: collapse whitespace runs to one space (worker for
the formatting-insensitive comparison). -/
def squeezeAux (prevWs : Bool) : Str → Str
  | [] => []
  | c :: rest =>
    if isPySpace c then
      (if prevWs then squeezeAux true rest else 32 :: squeezeAux true rest)
    else c :: squeezeAux false rest

/-- Comparison modulo formatting: strip outer whitespace and the statement
terminator, collapse interior whitespace runs to single spaces. -/
def normFmt (l : Str) : Str := squeezeAux true (restrip l)

instance {ε α : Type} [DecidableEq ε] [DecidableEq α] : DecidableEq (Except ε α) :=
  fun x y =>
    match x, y with
    | .ok a, .ok b =>
      if h : a = b then isTrue (by rw [h]) else
        isFalse (fun hc => h (Except.ok.inj hc))
    | .error a, .error b =>
      if h : a = b then isTrue (by rw [h]) else
        isFalse (fun hc => h (Except.error.inj hc))
    | .ok _, .error _ => isFalse (fun hc => Except.noConfusion hc)
    | .error _, .ok _ => isFalse (fun hc => Except.noConfusion hc)

example : sanitize (strL "SELECT * FROM daily_product_sales;") =
    .ok (strL "SELECT * FROM daily_product_sales LIMIT 200") := by decide

example : sanitize (strL "DROP TABLE x") = .error .notSelectWith := by decide

example : sanitize (strL "SELECT 1; DROP TABLE daily_product_sales") =
    .error .dangerous := by decide

example : sanitize (strL "select revenue where day > 3") =
    .ok (strL "select revenue FROM daily_product_sales  where day > 3 LIMIT 200") := by
  decide

/-- The concrete statement of the C6 scenario: a select statement with a
bare date-literal `date_trunc` call, canonical table and `limit` present. -/
def dtCexStmt : Str :=
  strL "select date_trunc(" ++ sqt "quarter" ++ strL ", " ++ sqt "2024-07-01"
    ++ strL ") as q from daily_product_sales limit 5"

/-- The Scenario A question. -/
def qA : Str := strL "Top 5 electronics products by revenue in Q3"

/-- The statement Scenario A of the specification claims for the fallback. -/
def claimedA : Str :=
  strL "SELECT product_title, category, SUM(units) AS units, SUM(revenue) AS revenue FROM daily_product_sales WHERE category = "
    ++ sqt "electronics" ++ strL " AND day BETWEEN DATE " ++ sqt "2024-07-01"
    ++ strL " AND DATE " ++ sqt "2024-09-30"
    ++ strL " GROUP BY product_title, category ORDER BY revenue DESC LIMIT 5;"

/-- The Scenario A statement as the code actually builds it:
`CAST(day AS DATE) BETWEEN ...` instead of `day BETWEEN ...`. -/
def amendedA : Str :=
  strL "SELECT product_title, category, SUM(units) AS units, SUM(revenue) AS revenue FROM daily_product_sales WHERE category = "
    ++ sqt "electronics" ++ strL " AND CAST(day AS DATE) BETWEEN DATE " ++ sqt "2024-07-01"
    ++ strL " AND DATE " ++ sqt "2024-09-30"
    ++ strL " GROUP BY product_title, category ORDER BY revenue DESC LIMIT 5;"

/-- Everything of the fallback statement before the decimal row bound. -/
def fbHead (q : Str) : Str :=
  strL "SELECT product_title, category, SUM(units) AS units, SUM(revenue) AS revenue\n"
    ++ strL "FROM daily_product_sales\n" ++ whereSqlOf q ++ strL "\n"
    ++ strL "GROUP BY product_title, category\n"
    ++ strL "ORDER BY revenue DESC\n"
    ++ strL "LIMIT "

/-! ### Character-class facts -/

theorem isPySpace_lowerChar (c : Nat) : isPySpace (lowerChar c) = isPySpace c := by
  unfold lowerChar isPySpace
  split
  · rename_i h
    simp only [Bool.and_eq_true, decide_eq_true_eq] at h
    have key : ∀ k : Nat, 65 ≤ k →
        ((k = 32 : Bool) || k = 9 || k = 10 || k = 13 || k = 11 || k = 12) = false := by
      intro k hk
      simp only [Bool.or_eq_false_iff, decide_eq_false_iff_not]
      omega
    rw [key (c + 32) (by omega), key c h.1]
  · rfl

theorem isSemi_lowerChar (c : Nat) : isSemi (lowerChar c) = isSemi c := by
  unfold lowerChar isSemi
  split
  · rename_i h
    simp only [Bool.and_eq_true, decide_eq_true_eq] at h
    simp only [decide_eq_decide]
    omega
  · rfl

theorem isPySpace_nonword {c : Nat} (h : isPySpace c = true) : isWordChar c = false := by
  unfold isPySpace at h
  unfold isWordChar
  simp only [Bool.or_eq_true, decide_eq_true_eq] at h
  simp only [Bool.or_eq_false_iff, Bool.and_eq_false_iff, decide_eq_false_iff_not]
  omega

theorem isSemi_nonword {c : Nat} (h : isSemi c = true) : isWordChar c = false := by
  unfold isSemi at h
  unfold isWordChar
  simp only [decide_eq_true_eq] at h
  simp only [Bool.or_eq_false_iff, Bool.and_eq_false_iff, decide_eq_false_iff_not]
  omega

/-! ### `lowerStr` commutations -/

theorem lowerStr_append (a b : Str) : lowerStr (a ++ b) = lowerStr a ++ lowerStr b :=
  List.map_append lowerChar a b

theorem lowerStr_length (l : Str) : (lowerStr l).length = l.length :=
  List.length_map l lowerChar

theorem lowerStr_take (n : Nat) (l : Str) : lowerStr (l.take n) = (lowerStr l).take n :=
  List.map_take lowerChar l n

theorem lowerStr_drop (n : Nat) (l : Str) : lowerStr (l.drop n) = (lowerStr l).drop n :=
  List.map_drop lowerChar l n

theorem lowerStr_reverse (l : Str) : lowerStr l.reverse = (lowerStr l).reverse :=
  List.map_reverse lowerChar l

theorem lowerStr_dropWhile (P : Nat → Bool) (hP : ∀ c, P (lowerChar c) = P c) (l : Str) :
    lowerStr (l.dropWhile P) = (lowerStr l).dropWhile P := by
  induction l with
  | nil => rfl
  | cons c r ih =>
    simp only [lowerStr, List.map_cons, List.dropWhile_cons, hP]
    split
    · exact ih
    · rfl

theorem lowerStr_dropTrailing (P : Nat → Bool) (hP : ∀ c, P (lowerChar c) = P c) (l : Str) :
    lowerStr (dropTrailing P l) = dropTrailing P (lowerStr l) := by
  unfold dropTrailing
  rw [lowerStr_reverse, lowerStr_dropWhile P hP, lowerStr_reverse]

theorem lowerStr_pyStrip (l : Str) : lowerStr (pyStrip l) = pyStrip (lowerStr l) := by
  unfold pyStrip
  rw [lowerStr_dropTrailing _ isPySpace_lowerChar, lowerStr_dropWhile _ isPySpace_lowerChar]

theorem lowerStr_stripSemi (l : Str) : lowerStr (stripSemi l) = stripSemi (lowerStr l) := by
  unfold stripSemi
  rw [lowerStr_dropTrailing _ isSemi_lowerChar, lowerStr_dropWhile _ isSemi_lowerChar]

theorem lowerStr_restrip (l : Str) : lowerStr (restrip l) = restrip (lowerStr l) := by
  unfold restrip
  rw [lowerStr_stripSemi, lowerStr_pyStrip]

/-! ### `findSub` and `containsSub` -/

theorem findSubAux_some (pat : Str) :
    ∀ (l : Str) (i p : Nat), findSubAux pat l i = some p →
      ∃ j, p = i + j ∧ pat.isPrefixOf (l.drop j) = true := by
  intro l
  induction l with
  | nil =>
    intro i p h
    unfold findSubAux at h
    split at h
    · rename_i he
      refine ⟨0, by simpa using (Option.some.inj h).symm, ?_⟩
      have : pat = [] := List.isEmpty_iff.mp he
      simp [this, List.isPrefixOf]
    · exact absurd h (by simp)
  | cons c rest ih =>
    intro i p h
    unfold findSubAux at h
    split at h
    · rename_i hc
      exact ⟨0, by simpa using (Option.some.inj h).symm, by simpa using hc⟩
    · obtain ⟨j, hj, hpre⟩ := ih (i + 1) p h
      exact ⟨j + 1, by omega, by simpa using hpre⟩

theorem findSubAux_isSome_of (pat : Str) :
    ∀ (l : Str) (j i : Nat), pat.isPrefixOf (l.drop j) = true →
      (findSubAux pat l i).isSome := by
  intro l
  induction l with
  | nil =>
    intro j i h
    have hp : pat.isPrefixOf ([] : Str) = true := by simpa using h
    have : pat = [] := by
      cases pat with
      | nil => rfl
      | cons a as => simp [List.isPrefixOf] at hp
    unfold findSubAux
    simp [this]
  | cons c rest ih =>
    intro j i h
    unfold findSubAux
    split
    · simp
    · rename_i hnp
      cases j with
      | zero => simp_all
      | succ j' => exact ih j' (i + 1) (by simpa using h)

theorem containsSub_iff (hay pat : Str) : containsSub hay pat = true ↔ pat <:+: hay := by
  constructor
  · intro h
    unfold containsSub at h
    obtain ⟨p, hp⟩ := Option.isSome_iff_exists.mp h
    obtain ⟨j, _, hpre⟩ := findSubAux_some pat hay 0 p hp
    have hprefix : pat <+: hay.drop j := List.isPrefixOf_iff_prefix.mp hpre
    exact hprefix.isInfix.trans (List.drop_suffix j hay).isInfix
  · rintro ⟨x, y, hxy⟩
    have hdrop : hay.drop x.length = pat ++ y := by
      rw [← hxy, List.append_assoc, List.drop_left]
    have hpre : pat.isPrefixOf (hay.drop x.length) = true := by
      rw [hdrop]
      exact List.isPrefixOf_iff_prefix.mpr (List.prefix_append pat y)
    unfold containsSub findSub
    exact findSubAux_isSome_of pat hay x.length 0 hpre

theorem containsSub_false_iff (hay pat : Str) :
    containsSub hay pat = false ↔ ¬ pat <:+: hay := by
  rw [← containsSub_iff]
  cases containsSub hay pat <;> simp

theorem findSub_some_prefix {pat hay : Str} {p : Nat} (h : findSub pat hay = some p) :
    pat.isPrefixOf (hay.drop p) = true := by
  obtain ⟨j, hj, hpre⟩ := findSubAux_some pat hay 0 p h
  simpa [hj] using hpre

/-! ### `lastOr` and standalone occurrences -/

theorem lastOr_cons (prev : Option Nat) (c : Nat) (r : Str) :
    lastOr prev (c :: r) = lastOr (some c) r := rfl

theorem lastOr_append (prev : Option Nat) (a b : Str) :
    lastOr prev (a ++ b) = lastOr (lastOr prev a) b := by
  induction a generalizing prev with
  | nil => rfl
  | cons c r ih => simp only [List.cons_append, lastOr_cons, ih]

theorem lastOr_of_ne_nil (prev prev' : Option Nat) (a : Str) (h : a ≠ []) :
    lastOr prev a = lastOr prev' a := by
  cases a with
  | nil => exact absurd rfl h
  | cons c r => rfl

theorem lastOr_mem {prev : Option Nat} {a : Str} {c : Nat}
    (h : lastOr prev a = some c) : c ∈ a ∨ prev = some c := by
  induction a generalizing prev with
  | nil => exact Or.inr h
  | cons d r ih =>
    rcases @ih (some d) h with hm | he
    · exact Or.inl (List.mem_cons_of_mem d hm)
    · exact Or.inl (by simp [Option.some.inj he])

theorem scanKws_iff (kws : List Str) (hne : ∀ kw ∈ kws, kw ≠ []) :
    ∀ (hay : Str) (prev : Option Nat),
      scanKws kws prev hay = true ↔ ∃ kw ∈ kws, StandaloneFrom prev hay kw := by
  intro hay
  induction hay with
  | nil =>
    intro prev
    constructor
    · intro h
      simp [scanKws] at h
    · rintro ⟨kw, hkw, a, b, habs, -, -⟩
      exfalso
      apply hne kw hkw
      have hlen := congrArg List.length habs
      simp at hlen
      exact List.eq_nil_of_length_eq_zero (by omega)
  | cons c rest ih =>
    intro prev
    unfold scanKws
    constructor
    · intro h
      rcases (Bool.or_eq_true _ _).mp h with h1 | h2
      · obtain ⟨hb, hm⟩ := Bool.and_eq_true_iff.mp h1
        obtain ⟨kw, hkw, hkwm⟩ := List.any_eq_true.mp hm
        obtain ⟨hpre, hbd⟩ := Bool.and_eq_true_iff.mp hkwm
        obtain ⟨t, ht⟩ := List.isPrefixOf_iff_prefix.mp hpre
        have hdrop : (c :: rest).drop kw.length = t := by
          rw [← ht]
          exact List.drop_left kw t
        refine ⟨kw, hkw, [], (c :: rest).drop kw.length, ?_, by simpa using hb, hbd⟩
        rw [hdrop, List.nil_append, ht]
      · obtain ⟨kw, hkw, a, b, heq, hl, hr⟩ := (ih (some c)).mp h2
        exact ⟨kw, hkw, c :: a, b, by simp [heq], by rwa [lastOr_cons], hr⟩
    · rintro ⟨kw, hkw, a, b, heq, hl, hr⟩
      cases a with
      | nil =>
        apply Bool.or_eq_true_iff.mpr
        left
        apply Bool.and_eq_true_iff.mpr
        refine ⟨by simpa using hl, ?_⟩
        apply List.any_eq_true.mpr
        have heq' : c :: rest = kw ++ b := by simpa using heq
        have hdrop : (c :: rest).drop kw.length = b := by
          rw [heq']
          exact List.drop_left kw b
        refine ⟨kw, hkw, Bool.and_eq_true_iff.mpr ⟨?_, ?_⟩⟩
        · exact List.isPrefixOf_iff_prefix.mpr ⟨b, heq'.symm⟩
        · rwa [hdrop]
      | cons c' a' =>
        apply Bool.or_eq_true_iff.mpr
        right
        apply (ih (some c)).mpr
        have hcc : c = c' ∧ rest = a' ++ kw ++ b := by
          have hx : c :: rest = c' :: (a' ++ kw ++ b) := by simpa using heq
          exact ⟨(List.cons.inj hx).1, (List.cons.inj hx).2⟩
        refine ⟨kw, hkw, a', b, hcc.2, ?_, hr⟩
        have hgoal : lastOr prev (c' :: a') = lastOr (some c) a' := by
          rw [lastOr_cons, hcc.1]
        rwa [hgoal] at hl

theorem hasBlocked_iff (low : Str) :
    hasBlocked low = true ↔ ∃ kw ∈ BLOCKED, Standalone low kw := by
  have hne : ∀ kw ∈ BLOCKED, kw ≠ [] := by decide
  exact scanKws_iff BLOCKED hne low none

theorem hasStandalone_iff (l pat : Str) (hne : pat ≠ []) :
    hasStandalone l pat = true ↔ Standalone l pat := by
  have h := scanKws_iff [pat] (by simpa using hne) l none
  unfold hasStandalone
  rw [h]
  simp [Standalone]

/-! ### Transport of standalone occurrences along the sanitizer transformations -/

theorem Standalone.append_right {a pat : Str} (h : Standalone a pat) (b : Str)
    (hb : boundaryOk b.head? = true) : Standalone (a ++ b) pat := by
  obtain ⟨x, y, heq, hl, hr⟩ := h
  refine ⟨x, y ++ b, by simp [heq], hl, ?_⟩
  cases y with
  | nil => simpa using hb
  | cons d r => simpa using hr

theorem Standalone.append_left {b pat : Str} (h : Standalone b pat) (a : Str)
    (ha : boundaryOk (lastOr none a) = true) : Standalone (a ++ b) pat := by
  obtain ⟨x, y, heq, hl, hr⟩ := h
  refine ⟨a ++ x, y, by simp [heq], ?_, hr⟩
  rw [lastOr_append]
  cases x with
  | nil => simpa using ha
  | cons d r => simpa [lastOr_cons] using hl

theorem Standalone.append_left_of_word {b pat : Str} (h : Standalone b pat)
    (hw : ∃ hd, pat.head? = some hd ∧ isWordChar hd = true)
    (hb : boundaryOk b.head? = true) (a : Str) : Standalone (a ++ b) pat := by
  obtain ⟨x, y, heq, hl, hr⟩ := h
  obtain ⟨hd, hhd, hhw⟩ := hw
  cases x with
  | nil =>
    exfalso
    have hbh : b.head? = pat.head? := by
      rw [heq]
      cases pat with
      | nil => simp at hhd
      | cons p ps => simp
    rw [hbh, hhd] at hb
    simp [boundaryOk, hhw] at hb
  | cons d r =>
    refine ⟨a ++ (d :: r), y, by simp [heq], ?_, hr⟩
    rw [lastOr_append]
    simpa [lastOr_cons] using hl

theorem Standalone.append_split {a b pat : Str} (h : Standalone (a ++ b) pat)
    (hpat : ∀ c ∈ pat, isWordChar c = true) (_hpne : pat ≠ [])
    (hb : boundaryOk b.head? = true) : Standalone a pat ∨ Standalone b pat := by
  obtain ⟨x, y, heq, hl, hr⟩ := h
  rw [List.append_assoc] at heq
  rcases List.append_eq_append_iff.mp heq with ⟨t, hxt, hbt⟩ | ⟨t, hat, hyt⟩
  · -- x = a ++ t and b = t ++ pat ++ y : occurrence inside b
    right
    refine ⟨t, y, by simpa using hbt, ?_, hr⟩
    cases t with
    | nil => rfl
    | cons d r =>
      have : lastOr none (d :: r) = lastOr none x := by
        rw [hxt, lastOr_append, lastOr_cons, lastOr_cons]
      rw [this]
      exact hl
  · -- a = x ++ t and pat ++ y = t ++ b
    rcases List.append_eq_append_iff.mp hyt with ⟨u, htu, hyu⟩ | ⟨u, hpu, hbu⟩
    · -- t = pat ++ u and y = u ++ b : occurrence inside a
      left
      refine ⟨x, u, by rw [hat, htu]; simp, hl, ?_⟩
      cases u with
      | nil => rfl
      | cons d r =>
        have : (d :: r).head? = y.head? := by rw [hyu]; rfl
        rw [this]
        exact hr
    · -- pat = t ++ u and b = u ++ y
      cases u with
      | nil =>
        -- pat = t, b = y : occurrence is the tail of a
        left
        rw [List.append_nil] at hpu
        refine ⟨x, [], by rw [hat, hpu, List.append_nil], hl, rfl⟩
      | cons d r =>
        -- the occurrence would span the seam: its char d is a word char
        -- sitting at the head of b, which is a boundary
        exfalso
        have hdw : isWordChar d = true := by
          apply hpat
          rw [hpu]
          exact List.mem_append_right t (by simp)
        have : b.head? = some d := by rw [hbu]; rfl
        rw [this] at hb
        simp [boundaryOk, hdw] at hb

theorem Standalone.of_dropWhile (P : Nat → Bool)
    (hP : ∀ c, P c = true → isWordChar c = false) {l pat : Str}
    (h : Standalone (l.dropWhile P) pat) : Standalone l pat := by
  have hdec : l = l.takeWhile P ++ l.dropWhile P :=
    (List.takeWhile_append_dropWhile P l).symm
  rw [hdec]
  apply h.append_left
  cases hlo : lastOr none (l.takeWhile P) with
  | none => rfl
  | some c =>
    rcases lastOr_mem hlo with hm | hp
    · have := List.mem_takeWhile_imp hm
      simp [boundaryOk, hP c this]
    · exact absurd hp (by simp)

theorem dropTrailing_decomp (P : Nat → Bool) (l : Str) :
    ∃ sfx, l = dropTrailing P l ++ sfx ∧ ∀ c ∈ sfx, P c = true := by
  refine ⟨(l.reverse.takeWhile P).reverse, ?_, ?_⟩
  · calc l = l.reverse.reverse := (List.reverse_reverse l).symm
      _ = (l.reverse.takeWhile P ++ l.reverse.dropWhile P).reverse := by
            rw [List.takeWhile_append_dropWhile]
      _ = (l.reverse.dropWhile P).reverse ++ (l.reverse.takeWhile P).reverse := by
            rw [List.reverse_append]
      _ = dropTrailing P l ++ (l.reverse.takeWhile P).reverse := rfl
  · intro c hc
    rw [List.mem_reverse] at hc
    exact List.mem_takeWhile_imp hc

theorem Standalone.of_dropTrailing (P : Nat → Bool)
    (hP : ∀ c, P c = true → isWordChar c = false) {l pat : Str}
    (h : Standalone (dropTrailing P l) pat) : Standalone l pat := by
  obtain ⟨sfx, hdec, hall⟩ := dropTrailing_decomp P l
  rw [hdec]
  apply h.append_right
  cases hsf : sfx.head? with
  | none => rfl
  | some c =>
    have hc : c ∈ sfx := by
      cases sfx with
      | nil => simp at hsf
      | cons d r =>
        simp at hsf
        simp [hsf]
    simp [boundaryOk, hP c (hall c hc)]

theorem Standalone.of_pyStrip {l pat : Str} (h : Standalone (pyStrip l) pat) :
    Standalone l pat := by
  unfold pyStrip at h
  exact (h.of_dropTrailing isPySpace (fun c hc => isPySpace_nonword hc)).of_dropWhile
    isPySpace (fun c hc => isPySpace_nonword hc)

theorem Standalone.of_stripSemi {l pat : Str} (h : Standalone (stripSemi l) pat) :
    Standalone l pat := by
  unfold stripSemi at h
  exact (h.of_dropTrailing isSemi (fun c hc => isSemi_nonword hc)).of_dropWhile
    isSemi (fun c hc => isSemi_nonword hc)

theorem Standalone.of_restrip {l pat : Str} (h : Standalone (restrip l) pat) :
    Standalone l pat := by
  unfold restrip at h
  exact h.of_stripSemi.of_pyStrip

/-! ### Preservation of prefixes and infixes along stripping and insertion -/

theorem lastOr_or (l : Str) : ∀ prev, lastOr prev l = (lastOr none l).or prev := by
  induction l with
  | nil => intro prev; rfl
  | cons c r ih =>
    intro prev
    rw [lastOr_cons, lastOr_cons, ih (some c)]
    cases lastOr none r with
    | none => rfl
    | some d => rfl

theorem reverse_head? (l : Str) : l.reverse.head? = lastOr none l := by
  induction l with
  | nil => rfl
  | cons c r ih =>
    rw [List.reverse_cons, List.head?_append, ih, lastOr_cons, lastOr_or r (some c)]
    rfl

theorem dropWhile_eq_self_of_head (P : Nat → Bool) {l : Str} {c : Nat}
    (h : l.head? = some c) (hc : P c = false) : l.dropWhile P = l := by
  cases l with
  | nil => simp at h
  | cons d r =>
    have hd : d = c := by simpa using h
    rw [List.dropWhile_cons, hd, hc]
    simp

theorem dropTrailing_eq_self_of_last (P : Nat → Bool) {l : Str} {c : Nat}
    (h : lastOr none l = some c) (hc : P c = false) : dropTrailing P l = l := by
  unfold dropTrailing
  rw [dropWhile_eq_self_of_head P (by rw [reverse_head?]; exact h) hc, List.reverse_reverse]

theorem infix_dropWhile (P : Nat → Bool) {t l : Str} {c : Nat}
    (ht : t <:+: l) (hh : t.head? = some c) (hc : P c = false) :
    t <:+: l.dropWhile P := by
  obtain ⟨x, y, hxy⟩ := ht
  subst hxy
  induction x with
  | nil =>
    rw [List.nil_append]
    have hty : (t ++ y).dropWhile P = t ++ y := by
      apply dropWhile_eq_self_of_head P _ hc
      cases t with
      | nil => simp at hh
      | cons d r => simpa using hh
    rw [hty]
    exact ⟨[], y, by simp⟩
  | cons a x' ih =>
    rw [List.cons_append, List.cons_append, List.dropWhile_cons]
    split
    · simpa using ih
    · exact ⟨a :: x', y, by simp⟩

theorem suffix_dropWhile (P : Nat → Bool) {t l : Str} {c : Nat}
    (ht : t <:+ l) (hh : t.head? = some c) (hc : P c = false) :
    t <:+ l.dropWhile P := by
  obtain ⟨x, hx⟩ := ht
  subst hx
  induction x with
  | nil =>
    rw [List.nil_append, dropWhile_eq_self_of_head P (by cases t with
      | nil => simp at hh
      | cons d r => simpa using hh) hc]
  | cons a x' ih =>
    rw [List.cons_append, List.dropWhile_cons]
    split
    · exact ih
    · exact ⟨a :: x', rfl⟩

theorem prefix_dropTrailing (P : Nat → Bool) {pat l : Str} {c : Nat}
    (h : pat <+: l) (hlast : lastOr none pat = some c) (hc : P c = false) :
    pat <+: dropTrailing P l := by
  have h1 : pat.reverse <:+ l.reverse := List.reverse_suffix.mpr h
  have hh : pat.reverse.head? = some c := by rw [reverse_head?]; exact hlast
  have h2 := suffix_dropWhile P h1 hh hc
  have h3 : (dropTrailing P l).reverse = l.reverse.dropWhile P := by
    unfold dropTrailing
    rw [List.reverse_reverse]
  apply List.reverse_suffix.mp
  rw [h3]
  exact h2

theorem infix_dropTrailing (P : Nat → Bool) {t l : Str} {c : Nat}
    (ht : t <:+: l) (hlast : lastOr none t = some c) (hc : P c = false) :
    t <:+: dropTrailing P l := by
  have h1 : t.reverse <:+: l.reverse := List.reverse_infix.mpr ht
  have hh : t.reverse.head? = some c := by rw [reverse_head?]; exact hlast
  have h2 := infix_dropWhile P h1 hh hc
  have h3 : (dropTrailing P l).reverse = l.reverse.dropWhile P := by
    unfold dropTrailing
    rw [List.reverse_reverse]
  apply List.reverse_infix.mp
  rw [h3]
  exact h2

/-- A string is clean when its first and last characters are neither
whitespace nor semicolons (so every strip of the sanitizer leaves any of
its occurrences intact). -/
def cleanEnds (t : Str) : Prop :=
  (∃ c, t.head? = some c ∧ isPySpace c = false ∧ isSemi c = false) ∧
  (∃ c, lastOr none t = some c ∧ isPySpace c = false ∧ isSemi c = false)

theorem infix_pyStrip {t l : Str} (ht : t <:+: l) (hc : cleanEnds t) :
    t <:+: pyStrip l := by
  obtain ⟨⟨c1, hh, hws1, -⟩, ⟨c2, hl2, hws2, -⟩⟩ := hc
  unfold pyStrip
  exact infix_dropTrailing isPySpace (infix_dropWhile isPySpace ht hh hws1) hl2 hws2

theorem infix_stripSemi {t l : Str} (ht : t <:+: l) (hc : cleanEnds t) :
    t <:+: stripSemi l := by
  obtain ⟨⟨c1, hh, -, hs1⟩, ⟨c2, hl2, -, hs2⟩⟩ := hc
  unfold stripSemi
  exact infix_dropTrailing isSemi (infix_dropWhile isSemi ht hh hs1) hl2 hs2

theorem infix_restrip {t l : Str} (ht : t <:+: l) (hc : cleanEnds t) :
    t <:+: restrip l := by
  unfold restrip
  exact infix_stripSemi (infix_pyStrip ht hc) hc

theorem head?_of_pre {pat l : Str} (h : pat <+: l) (hne : pat ≠ []) :
    l.head? = pat.head? := by
  obtain ⟨rest, hr⟩ := h
  cases pat with
  | nil => exact absurd rfl hne
  | cons d r => rw [← hr]; rfl

theorem prefix_pyStrip {pat l : Str} (h : pat <+: l) (hc : cleanEnds pat) :
    pat <+: pyStrip l := by
  obtain ⟨⟨c1, hh, hws1, -⟩, ⟨c2, hl2, hws2, -⟩⟩ := hc
  have hne : pat ≠ [] := by
    intro he
    rw [he] at hh
    simp at hh
  unfold pyStrip
  have hid : l.dropWhile isPySpace = l :=
    dropWhile_eq_self_of_head isPySpace (by rw [head?_of_pre h hne]; exact hh) hws1
  rw [hid]
  exact prefix_dropTrailing isPySpace h hl2 hws2

theorem prefix_stripSemi {pat l : Str} (h : pat <+: l) (hc : cleanEnds pat) :
    pat <+: stripSemi l := by
  obtain ⟨⟨c1, hh, -, hs1⟩, ⟨c2, hl2, -, hs2⟩⟩ := hc
  have hne : pat ≠ [] := by
    intro he
    rw [he] at hh
    simp at hh
  unfold stripSemi
  have hid : l.dropWhile isSemi = l :=
    dropWhile_eq_self_of_head isSemi (by rw [head?_of_pre h hne]; exact hh) hs1
  rw [hid]
  exact prefix_dropTrailing isSemi h hl2 hs2

theorem prefix_restrip {pat l : Str} (h : pat <+: l) (hc : cleanEnds pat) :
    pat <+: restrip l := by
  unfold restrip
  exact prefix_stripSemi (prefix_pyStrip h hc) hc

/-! ### The clause-boundary cut of `enforce_table` -/

theorem wsSafe_tail {a : Nat} {rest : Str} (h : wsSafe (a :: rest) = true) :
    wsSafe rest = true := by
  cases rest with
  | nil => rfl
  | cons d r =>
    unfold wsSafe at h
    exact (Bool.and_eq_true_iff.mp h).2

theorem wsSafe_spec {u v : Str} {c : Nat} :
    ∀ {t : Str}, wsSafe t = true → t = u ++ c :: v → isPySpace c = true →
      ∃ d r, v = d :: r ∧ wgol d = false := by
  induction u with
  | nil =>
    intro t hsafe heq hws
    subst heq
    cases v with
    | nil =>
      unfold wsSafe at hsafe
      simp [hws] at hsafe
    | cons d r =>
      unfold wsSafe at hsafe
      obtain ⟨h1, -⟩ := Bool.and_eq_true_iff.mp hsafe
      rcases Bool.or_eq_true_iff.mp h1 with hx | hx
      · rw [hws] at hx
        simp at hx
      · exact ⟨d, r, rfl, by simpa using hx⟩
  | cons a u' ih =>
    intro t hsafe heq hws
    subst heq
    have : wsSafe (u' ++ c :: v) = true := wsSafe_tail (by simpa using hsafe)
    exact ih this rfl hws

theorem foldl_min_cases (low : Str) :
    ∀ (kws : List Str) (init : Nat),
      (kws.foldl (fun acc kw => match findSub kw low with
        | some p => min acc p
        | none => acc) init = init) ∨
      ∃ kw ∈ kws, findSub kw low =
        some (kws.foldl (fun acc kw => match findSub kw low with
          | some p => min acc p
          | none => acc) init) := by
  intro kws
  induction kws with
  | nil => intro init; exact Or.inl rfl
  | cons kw rest ih =>
    intro init
    rw [List.foldl_cons]
    rcases hfs : findSub kw low with _ | p
    · rcases ih init with h | ⟨kw', hkw', h⟩
      · exact Or.inl h
      · exact Or.inr ⟨kw', List.mem_cons_of_mem kw hkw', h⟩
    · rcases Nat.le_total init p with hle | hle
      · rcases ih (min init p) with h | ⟨kw', hkw', h⟩
        · rw [h]
          exact Or.inl (Nat.min_eq_left hle)
        · exact Or.inr ⟨kw', List.mem_cons_of_mem kw hkw', h⟩
      · rcases ih (min init p) with h | ⟨kw', hkw', h⟩
        · rw [h, Nat.min_eq_right hle]
          exact Or.inr ⟨kw, List.mem_cons_self kw rest, hfs⟩
        · exact Or.inr ⟨kw', List.mem_cons_of_mem kw hkw', h⟩

theorem cutOf_cases (low : Str) (len : Nat) :
    cutOf low len = len ∨ ∃ kw ∈ cutKws, findSub kw low = some (cutOf low len) :=
  foldl_min_cases low cutKws len

theorem cut_boundary {low : Str} {cut : Nat} {kw : Str} (hkw : kw ∈ cutKws)
    (hfs : findSub kw low = some cut) :
    ∃ c₀ c₁, (low.drop cut).head? = some c₀ ∧ isPySpace c₀ = true ∧
      (low.drop (cut + 1)).head? = some c₁ ∧ wgol c₁ = true := by
  have hpre := findSub_some_prefix hfs
  obtain ⟨rest, hrest⟩ := List.isPrefixOf_iff_prefix.mp hpre
  have hdrop1 : low.drop (cut + 1) = (low.drop cut).drop 1 := by
    rw [List.drop_drop]
  fin_cases hkw
  · exact ⟨32, 119, by rw [← hrest]; rfl, by decide, by rw [hdrop1, ← hrest]; rfl, by decide⟩
  · exact ⟨10, 119, by rw [← hrest]; rfl, by decide, by rw [hdrop1, ← hrest]; rfl, by decide⟩
  · exact ⟨32, 103, by rw [← hrest]; rfl, by decide, by rw [hdrop1, ← hrest]; rfl, by decide⟩
  · exact ⟨10, 103, by rw [← hrest]; rfl, by decide, by rw [hdrop1, ← hrest]; rfl, by decide⟩
  · exact ⟨32, 111, by rw [← hrest]; rfl, by decide, by rw [hdrop1, ← hrest]; rfl, by decide⟩
  · exact ⟨10, 111, by rw [← hrest]; rfl, by decide, by rw [hdrop1, ← hrest]; rfl, by decide⟩
  · exact ⟨32, 108, by rw [← hrest]; rfl, by decide, by rw [hdrop1, ← hrest]; rfl, by decide⟩
  · exact ⟨10, 108, by rw [← hrest]; rfl, by decide, by rw [hdrop1, ← hrest]; rfl, by decide⟩

theorem infix_app_right {t A : Str} (h : t <:+: A) (B : Str) : t <:+: A ++ B := by
  obtain ⟨x, y, hxy⟩ := h
  exact ⟨x, y ++ B, by rw [← hxy]; simp⟩

theorem infix_app_left {t B : Str} (h : t <:+: B) (A : Str) : t <:+: A ++ B := by
  obtain ⟨x, y, hxy⟩ := h
  exact ⟨A ++ x, y, by rw [← hxy]; simp⟩

theorem infix_insert {t l ins : Str} {cut : Nat} (ht : t <:+: l)
    (hsafe : wsSafe (lowerStr t) = true)
    (hcut : cut = l.length ∨
      ∃ c₀ c₁, ((lowerStr l).drop cut).head? = some c₀ ∧ isPySpace c₀ = true ∧
        ((lowerStr l).drop (cut + 1)).head? = some c₁ ∧ wgol c₁ = true) :
    t <:+: l.take cut ++ ins ++ l.drop cut := by
  obtain ⟨x, y, hxy⟩ := ht
  rcases Nat.lt_or_ge cut (x.length + t.length) with hlt | hge
  · rcases Nat.lt_or_ge x.length cut with hxlt | hxge
    · -- x.length < cut < x.length + t.length : the cut would fall strictly
      -- inside the occurrence, contradicting `wsSafe`
      exfalso
      rcases hcut with hlen | ⟨c₀, c₁, h0, hws0, h1, hwg1⟩
      · have := congrArg List.length hxy
        simp at this
        omega
      · have hlow : lowerStr l = lowerStr x ++ (lowerStr t ++ lowerStr y) := by
          rw [← hxy, List.append_assoc, lowerStr_append, lowerStr_append]
        have hlenx : (lowerStr x).length = x.length := lowerStr_length x
        have hlent : (lowerStr t).length = t.length := lowerStr_length t
        have e2 : cut - (lowerStr x).length - (lowerStr t).length = 0 := by
          rw [hlenx, hlent]
          omega
        have e3 : cut - (lowerStr x).length = cut - x.length := by rw [hlenx]
        have hdropcut : (lowerStr l).drop cut =
            (lowerStr t).drop (cut - x.length) ++ lowerStr y := by
          rw [hlow, List.drop_append_eq_append_drop,
            List.drop_eq_nil_of_le (by rw [hlenx]; omega), List.nil_append,
            List.drop_append_eq_append_drop, e2, List.drop_zero, e3]
        have hne : (lowerStr t).drop (cut - x.length) ≠ [] := by
          intro he
          have := congrArg List.length he
          rw [List.length_drop, hlent] at this
          simp at this
          omega
        cases hdj : (lowerStr t).drop (cut - x.length) with
        | nil => exact hne hdj
        | cons d v =>
          have hd : d = c₀ := by
            rw [hdropcut, hdj] at h0
            simpa using h0
          have hdecomp : lowerStr t = (lowerStr t).take (cut - x.length) ++ c₀ :: v := by
            rw [← hd, ← hdj, List.take_append_drop]
          obtain ⟨e, r, hv, hwge⟩ := wsSafe_spec hsafe hdecomp hws0
          have hdrop1 : (lowerStr l).drop (cut + 1) = e :: (r ++ lowerStr y) := by
            have : (lowerStr l).drop (cut + 1) = ((lowerStr l).drop cut).drop 1 := by
              rw [List.drop_drop]
            rw [this, hdropcut, hdj, hv]
            rfl
          rw [hdrop1] at h1
          have : e = c₁ := by simpa using h1
          rw [this] at hwge
          rw [hwge] at hwg1
          exact Bool.false_ne_true hwg1
    · -- cut ≤ x.length : the occurrence lies inside the kept suffix
      apply infix_app_left
      have hsplit : l.drop cut = x.drop cut ++ (t ++ y) := by
        rw [← hxy, List.append_assoc, List.drop_append_eq_append_drop,
          Nat.sub_eq_zero_of_le hxge, List.drop_zero]
      rw [hsplit]
      exact infix_app_left ⟨[], y, by simp⟩ _
  · -- x.length + t.length ≤ cut : the occurrence lies inside the kept prefix
    apply infix_app_right
    apply infix_app_right
    have hsplit : l.take cut = (x ++ t) ++ (y.take (cut - (x ++ t).length)) := by
      rw [← hxy, List.append_assoc,
        show x ++ (t ++ y) = (x ++ t) ++ y from by simp,
        List.take_append_eq_append_take,
        List.take_of_length_le (by simp; omega)]
    rw [hsplit]
    exact infix_app_right ⟨x, [], by simp⟩ _

/-! ### Splitting standalone occurrences across the table insertion -/

theorem lowerChar_idem (c : Nat) : lowerChar (lowerChar c) = lowerChar c := by
  unfold lowerChar
  split
  · rename_i h
    simp only [Bool.and_eq_true, decide_eq_true_eq] at h
    rw [if_neg (by simp only [Bool.and_eq_true, decide_eq_true_eq, not_and]; omega)]
  · rfl

theorem lowerStr_idem (l : Str) : lowerStr (lowerStr l) = lowerStr l := by
  unfold lowerStr
  rw [List.map_map]
  apply List.map_congr_left
  intro c _
  exact lowerChar_idem c

theorem prefix_app_right {pat A : Str} (h : pat <+: A) (B : Str) : pat <+: A ++ B := by
  obtain ⟨x, hx⟩ := h
  exact ⟨x ++ B, by rw [← hx]; simp⟩

theorem word_head_of_boundary {kw : Str} (h : boundaryOk kw.head? = false) :
    ∃ hd, kw.head? = some hd ∧ isWordChar hd = true := by
  cases hh : kw.head? with
  | none => rw [hh] at h; simp [boundaryOk] at h
  | some hd =>
    rw [hh] at h
    refine ⟨hd, rfl, ?_⟩
    simpa [boundaryOk] using h

theorem blocked_facts :
    ∀ kw ∈ BLOCKED, (∀ c ∈ kw, isWordChar c = true) ∧ kw ≠ [] ∧
      boundaryOk kw.head? = false := by decide

theorem not_standalone_of_hasBlocked_false {l kw : Str} (hkw : kw ∈ BLOCKED)
    (hfb : hasBlocked l = false) : ¬ Standalone l kw := by
  intro h
  rw [(hasBlocked_iff l).mpr ⟨kw, hkw, h⟩] at hfb
  simp at hfb

theorem standalone_insert_split {low1 : Str} {cut : Nat} {kw : Str}
    (hkw : kw ∈ BLOCKED)
    (hcutb : boundaryOk (low1.drop cut).head? = true)
    (h : Standalone (low1.take cut ++ lowerStr insFrom ++ low1.drop cut) kw) :
    Standalone low1 kw ∨ Standalone (lowerStr insFrom) kw := by
  obtain ⟨hall, hne, hbdy⟩ := blocked_facts kw hkw
  have hinshead : boundaryOk (lowerStr insFrom ++ low1.drop cut).head? = true := by
    rfl
  rw [List.append_assoc] at h
  rcases h.append_split hall hne hinshead with hA | hIB
  · -- in the kept prefix: extend to the right over the dropped part
    left
    have := hA.append_right (low1.drop cut) hcutb
    rwa [List.take_append_drop] at this
  · rcases hIB.append_split hall hne hcutb with hI | hB
    · exact Or.inr hI
    · -- in the kept suffix: extend to the left
      left
      have := hB.append_left_of_word (word_head_of_boundary hbdy) hcutb (low1.take cut)
      rwa [List.take_append_drop] at this

/-! ### Case analysis of `sanitize` and `enforce_table` -/

theorem cutOf_spec (s1 : Str) :
    cutOf (lowerStr s1) s1.length = s1.length ∨
      ∃ c₀ c₁,
        ((lowerStr s1).drop (cutOf (lowerStr s1) s1.length)).head? = some c₀ ∧
          isPySpace c₀ = true ∧
        ((lowerStr s1).drop (cutOf (lowerStr s1) s1.length + 1)).head? = some c₁ ∧
          wgol c₁ = true := by
  rcases cutOf_cases (lowerStr s1) s1.length with h | ⟨kw, hkw, hfs⟩
  · exact Or.inl h
  · exact Or.inr (cut_boundary hkw hfs)

theorem cutOf_drop_boundary (s1 : Str) :
    boundaryOk ((lowerStr s1).drop (cutOf (lowerStr s1) s1.length)).head? = true := by
  rcases cutOf_spec s1 with h | ⟨c₀, c₁, h0, hws, -, -⟩
  · rw [h, List.drop_eq_nil_of_le (le_of_eq (lowerStr_length s1))]
    rfl
  · rw [h0]
    simp [boundaryOk, isPySpace_nonword hws]

theorem enforce_table_cases (s : Str) :
    (containsSub (lowerStr (restrip s)) TABLE = true ∧ enforce_table s = restrip s) ∨
    (containsSub (lowerStr (restrip s)) TABLE = false ∧
      enforce_table s =
        pyStrip ((restrip s).take (cutOf (lowerStr (restrip s)) (restrip s).length)
          ++ insFrom
          ++ (restrip s).drop (cutOf (lowerStr (restrip s)) (restrip s).length))) := by
  unfold enforce_table
  cases hc : containsSub (lowerStr (restrip s)) TABLE with
  | true => exact Or.inl ⟨rfl, by rw [if_pos rfl]⟩
  | false => exact Or.inr ⟨rfl, by rw [if_neg (by simp)]⟩

theorem sanitize_ok_cases {sql out : Str} (h : sanitize sql = .ok out) :
    startsSelectWith (lowerStr (restrip sql)) = true ∧
    hasBlocked (lowerStr (restrip sql)) = false ∧
    ((containsSub (lowerStr (restrip sql)) (strL "limit") = true ∧
        out = enforce_table (restrip sql)) ∨
     (containsSub (lowerStr (restrip sql)) (strL "limit") = false ∧
        out = enforce_table (restrip sql) ++ app200)) := by
  unfold sanitize at h
  split at h
  · exact absurd h (by simp)
  · rename_i hsw
    split at h
    · exact absurd h (by simp)
    · rename_i hbl
      refine ⟨by simpa using hsw, by simpa using hbl, ?_⟩
      split at h
      · rename_i hlim
        exact Or.inl ⟨hlim, (Except.ok.inj h).symm⟩
      · rename_i hlim
        exact Or.inr ⟨by simpa using hlim, (Except.ok.inj h).symm⟩

/-! ### The four invariants of sanitizer output -/

theorem cleanEnds_select : cleanEnds (strL "select") :=
  ⟨⟨115, by decide, by decide, by decide⟩, ⟨116, by decide, by decide, by decide⟩⟩

theorem cleanEnds_with : cleanEnds (strL "with") :=
  ⟨⟨119, by decide, by decide, by decide⟩, ⟨104, by decide, by decide, by decide⟩⟩

theorem cleanEnds_limit : cleanEnds (strL "limit") :=
  ⟨⟨108, by decide, by decide, by decide⟩, ⟨116, by decide, by decide, by decide⟩⟩

theorem cleanEnds_TABLE : cleanEnds TABLE :=
  ⟨⟨100, by decide, by decide, by decide⟩, ⟨115, by decide, by decide, by decide⟩⟩

theorem table_in_insFrom : containsSub (lowerStr insFrom) TABLE = true := by decide

theorem limit_in_app200 : containsSub (lowerStr app200) (strL "limit") = true := by decide

theorem wsSafe_limit : wsSafe (lowerStr (strL "limit")) = true := by decide

theorem enforce_lower_noBlocked {s0 : Str} (hnb : hasBlocked (lowerStr s0) = false)
    {kw : Str} (hkw : kw ∈ BLOCKED) :
    ¬ Standalone (lowerStr (enforce_table s0)) kw := by
  intro h
  rcases enforce_table_cases s0 with ⟨hTab, heq⟩ | ⟨hTab, heq⟩
  · rw [heq, lowerStr_restrip] at h
    exact not_standalone_of_hasBlocked_false hkw hnb h.of_restrip
  · rw [heq, lowerStr_pyStrip, lowerStr_append, lowerStr_append, lowerStr_take,
      lowerStr_drop] at h
    rcases standalone_insert_split hkw (cutOf_drop_boundary (restrip s0)) h.of_pyStrip
      with h1 | h2
    · rw [lowerStr_restrip] at h1
      exact not_standalone_of_hasBlocked_false hkw hnb h1.of_restrip
    · exact not_standalone_of_hasBlocked_false hkw (by decide) h2

theorem sanitize_ok_noBlocked {sql out : Str} (h : sanitize sql = .ok out) :
    hasBlocked (lowerStr out) = false := by
  obtain ⟨-, hnb, hcase⟩ := sanitize_ok_cases h
  cases hB : hasBlocked (lowerStr out) with
  | false => rfl
  | true =>
    exfalso
    obtain ⟨kw, hkw, hst⟩ := (hasBlocked_iff _).mp hB
    obtain ⟨hall, hne, -⟩ := blocked_facts kw hkw
    rcases hcase with ⟨-, heq⟩ | ⟨-, heq⟩
    · rw [heq] at hst
      exact enforce_lower_noBlocked hnb hkw hst
    · rw [heq, lowerStr_append] at hst
      rcases hst.append_split hall hne (by decide) with h1 | h2
      · exact enforce_lower_noBlocked hnb hkw h1
      · exact not_standalone_of_hasBlocked_false hkw (by decide) h2

theorem prefix_enforce {s0 pat : Str} (hp : pat <+: lowerStr s0)
    (hclean : cleanEnds pat) (hnws : ∀ c ∈ pat, isPySpace c = false) :
    pat <+: lowerStr (enforce_table s0) := by
  rcases enforce_table_cases s0 with ⟨hTab, heq⟩ | ⟨hTab, heq⟩
  · rw [heq, lowerStr_restrip]
    exact prefix_restrip hp hclean
  · rw [heq, lowerStr_pyStrip, lowerStr_append, lowerStr_append, lowerStr_take,
      lowerStr_drop]
    apply prefix_pyStrip _ hclean
    have hp1 : pat <+: lowerStr (restrip s0) := by
      rw [lowerStr_restrip]
      exact prefix_restrip hp hclean
    obtain ⟨rest, hrest⟩ := hp1
    have hlen1 : (lowerStr (restrip s0)).length = (restrip s0).length :=
      lowerStr_length _
    have hlenp : pat.length + rest.length = (lowerStr (restrip s0)).length := by
      have := congrArg List.length hrest
      simpa using this
    set cut := cutOf (lowerStr (restrip s0)) (restrip s0).length with hcutdef
    have hcutge : pat.length ≤ cut := by
      rcases cutOf_spec (restrip s0) with hc | ⟨c₀, c₁, h0, hws, -, -⟩
      · rw [hcutdef, hc]
        omega
      · by_contra hlt
        push_neg at hlt
        have hds : (lowerStr (restrip s0)).drop cut = pat.drop cut ++ rest := by
          rw [← hrest, List.drop_append_eq_append_drop,
            Nat.sub_eq_zero_of_le (by omega), List.drop_zero]
        cases hdp : pat.drop cut with
        | nil =>
          have := congrArg List.length hdp
          simp at this
          omega
        | cons d v =>
          have hd : d = c₀ := by
            rw [hds, hdp] at h0
            simpa using h0
          have hdmem : d ∈ pat := by
            have hin : d ∈ pat.drop cut := by
              rw [hdp]
              exact List.mem_cons_self d v
            exact List.mem_of_mem_drop hin
          rw [← hd, hnws d hdmem] at hws
          simp at hws
    apply prefix_app_right
    apply prefix_app_right
    have htake : (lowerStr (restrip s0)).take cut =
        pat ++ rest.take (cut - pat.length) := by
      rw [← hrest, List.take_append_eq_append_take, List.take_of_length_le hcutge]
    rw [htake]
    exact ⟨_, rfl⟩

theorem sanitize_ok_starts {sql out : Str} (h : sanitize sql = .ok out) :
    startsSelectWith (lowerStr out) = true := by
  obtain ⟨hsw, -, hcase⟩ := sanitize_ok_cases h
  have core : ∀ pat : Str, cleanEnds pat → (∀ c ∈ pat, isPySpace c = false) →
      pat.isPrefixOf (lowerStr (restrip sql)) = true →
      pat.isPrefixOf (lowerStr out) = true := by
    intro pat hclean hnws hpre
    apply List.isPrefixOf_iff_prefix.mpr
    have hp := List.isPrefixOf_iff_prefix.mp hpre
    rcases hcase with ⟨-, heq⟩ | ⟨-, heq⟩
    · rw [heq]
      exact prefix_enforce hp hclean hnws
    · rw [heq, lowerStr_append]
      exact prefix_app_right (prefix_enforce hp hclean hnws) _
  rcases Bool.or_eq_true_iff.mp hsw with hps | hps
  · exact Bool.or_eq_true_iff.mpr
      (Or.inl (core (strL "select") cleanEnds_select (by decide) hps))
  · exact Bool.or_eq_true_iff.mpr
      (Or.inr (core (strL "with") cleanEnds_with (by decide) hps))

theorem sanitize_ok_table {sql out : Str} (h : sanitize sql = .ok out) :
    containsSub (lowerStr out) TABLE = true := by
  obtain ⟨-, -, hcase⟩ := sanitize_ok_cases h
  have hcore : containsSub (lowerStr (enforce_table (restrip sql))) TABLE = true := by
    rcases enforce_table_cases (restrip sql) with ⟨hTab, heq⟩ | ⟨hTab, heq⟩
    · rw [heq]
      exact hTab
    · rw [heq, lowerStr_pyStrip, lowerStr_append, lowerStr_append, lowerStr_take,
        lowerStr_drop]
      apply (containsSub_iff _ _).mpr
      apply infix_pyStrip _ cleanEnds_TABLE
      exact infix_app_right
        (infix_app_left ((containsSub_iff _ _).mp table_in_insFrom) _) _
  rcases hcase with ⟨-, heq⟩ | ⟨-, heq⟩
  · rw [heq]
    exact hcore
  · rw [heq, lowerStr_append]
    exact (containsSub_iff _ _).mpr
      (infix_app_right ((containsSub_iff _ _).mp hcore) _)

theorem sanitize_ok_limitSub {sql out : Str} (h : sanitize sql = .ok out) :
    containsSub (lowerStr out) (strL "limit") = true := by
  obtain ⟨-, -, hcase⟩ := sanitize_ok_cases h
  rcases hcase with ⟨hlim, heq⟩ | ⟨hlim, heq⟩
  · rw [heq]
    have hlow : strL "limit" <:+: lowerStr (restrip sql) :=
      (containsSub_iff _ _).mp hlim
    rcases enforce_table_cases (restrip sql) with ⟨hTab, heq2⟩ | ⟨hTab, heq2⟩
    · rw [heq2, lowerStr_restrip]
      exact (containsSub_iff _ _).mpr (infix_restrip hlow cleanEnds_limit)
    · rw [heq2, lowerStr_pyStrip, lowerStr_append, lowerStr_append, lowerStr_take,
        lowerStr_drop]
      apply (containsSub_iff _ _).mpr
      apply infix_pyStrip _ cleanEnds_limit
      have h1 : strL "limit" <:+: lowerStr (restrip (restrip sql)) := by
        rw [lowerStr_restrip]
        exact infix_restrip hlow cleanEnds_limit
      apply infix_insert h1 wsSafe_limit
      rcases cutOf_spec (restrip (restrip sql)) with hc | ⟨c₀, c₁, h0, hws, h1c, hwg⟩
      · left
        rw [lowerStr_length]
        exact hc
      · right
        exact ⟨c₀, c₁, by rw [lowerStr_idem]; exact h0, hws,
          by rw [lowerStr_idem]; exact h1c, hwg⟩
  · rw [heq, lowerStr_append]
    exact (containsSub_iff _ _).mpr
      (infix_app_left ((containsSub_iff _ _).mp limit_in_app200) _)

/-- Verbatim preservation: a clean, insertion-safe infix of the trimmed
input survives sanitization untouched. -/
theorem sanitize_ok_infix_preserved {sql out t : Str} (h : sanitize sql = .ok out)
    (ht : t <:+: restrip sql) (hsafe : wsSafe (lowerStr t) = true)
    (hclean : cleanEnds t) : t <:+: out := by
  obtain ⟨-, -, hcase⟩ := sanitize_ok_cases h
  have hbody : t <:+: enforce_table (restrip sql) := by
    rcases enforce_table_cases (restrip sql) with ⟨hTab, heq2⟩ | ⟨hTab, heq2⟩
    · rw [heq2]
      exact infix_restrip ht hclean
    · rw [heq2]
      apply infix_pyStrip _ hclean
      exact infix_insert (infix_restrip ht hclean) hsafe (cutOf_spec (restrip (restrip sql)))
  rcases hcase with ⟨-, heq⟩ | ⟨-, heq⟩
  · rw [heq]
    exact hbody
  · rw [heq]
    exact infix_app_right hbody _

/-! ### Idempotence machinery -/

theorem restrip_eq_self {l : Str} {c0 cl : Nat}
    (hh : l.head? = some c0) (h0ws : isPySpace c0 = false) (h0s : isSemi c0 = false)
    (hl : lastOr none l = some cl) (hlws : isPySpace cl = false)
    (hls : isSemi cl = false) : restrip l = l := by
  unfold restrip pyStrip stripSemi
  rw [dropWhile_eq_self_of_head isPySpace hh h0ws,
    dropTrailing_eq_self_of_last isPySpace hl hlws,
    dropWhile_eq_self_of_head isSemi hh h0s,
    dropTrailing_eq_self_of_last isSemi hl hls]

theorem sanitize_ok_head {sql out : Str} (h : sanitize sql = .ok out) :
    ∃ c, out.head? = some c ∧ isPySpace c = false ∧ isSemi c = false := by
  have hsw := sanitize_ok_starts h
  have hmap : (lowerStr out).head? = out.head?.map lowerChar :=
    List.head?_map lowerChar out
  have hlow : ∃ d, (lowerStr out).head? = some d ∧ isPySpace d = false ∧
      isSemi d = false := by
    rcases Bool.or_eq_true_iff.mp hsw with hps | hps
    · obtain ⟨rest, hrest⟩ := List.isPrefixOf_iff_prefix.mp hps
      refine ⟨115, ?_, by decide, by decide⟩
      rw [← hrest]
      rfl
    · obtain ⟨rest, hrest⟩ := List.isPrefixOf_iff_prefix.mp hps
      refine ⟨119, ?_, by decide, by decide⟩
      rw [← hrest]
      rfl
  obtain ⟨d, hd, hdws, hds⟩ := hlow
  rw [hmap] at hd
  cases hout : out.head? with
  | none => rw [hout] at hd; simp at hd
  | some c =>
    rw [hout] at hd
    have hc : lowerChar c = d := by simpa using hd
    refine ⟨c, rfl, ?_, ?_⟩
    · rw [← isPySpace_lowerChar, hc]
      exact hdws
    · rw [← isSemi_lowerChar, hc]
      exact hds

/-! ### Claim C1 -/

/-- C1 counterexample: on the input `select unlimited from daily_product_sales`
the sanitizer succeeds and returns the statement unchanged; the output
contains no standalone `limit` token, hence no `LIMIT` clause — the
substring `limit` inside the identifier `unlimited` suppressed the
appending of the default limit.  This refutes the conjunct of C1 that
every sanitizer output contains a `LIMIT` clause. -/
theorem C1_counterexample :
    sanitize (strL "select unlimited from daily_product_sales") =
      .ok (strL "select unlimited from daily_product_sales") ∧
    hasStandalone (lowerStr (strL "select unlimited from daily_product_sales"))
      (strL "limit") = false := ⟨by decide, by decide⟩

/-- C1 (amended): for every input on which `sanitize` succeeds, the returned
statement starts with `select` or `with` case-insensitively, contains no
blocked keyword as a standalone word, contains the canonical table name
`daily_product_sales` case-insensitively, and contains `limit` as a
substring case-insensitively (not necessarily as a `LIMIT` clause). -/
theorem C1_sanitize_output_invariants {sql out : Str} (h : sanitize sql = .ok out) :
    startsSelectWith (lowerStr out) = true ∧
    hasBlocked (lowerStr out) = false ∧
    containsSub (lowerStr out) TABLE = true ∧
    containsSub (lowerStr out) (strL "limit") = true :=
  ⟨sanitize_ok_starts h, sanitize_ok_noBlocked h, sanitize_ok_table h,
   sanitize_ok_limitSub h⟩

/-- C1 witness: the invariants hold on a concrete sanitized statement. -/
theorem C1_witness :
    sanitize (strL "SELECT * FROM daily_product_sales;") =
      .ok (strL "SELECT * FROM daily_product_sales LIMIT 200") ∧
    (startsSelectWith (lowerStr (strL "SELECT * FROM daily_product_sales LIMIT 200")) = true ∧
     hasBlocked (lowerStr (strL "SELECT * FROM daily_product_sales LIMIT 200")) = false ∧
     containsSub (lowerStr (strL "SELECT * FROM daily_product_sales LIMIT 200")) TABLE = true ∧
     containsSub (lowerStr (strL "SELECT * FROM daily_product_sales LIMIT 200"))
       (strL "limit") = true) :=
  ⟨by decide,
   @C1_sanitize_output_invariants (strL "SELECT * FROM daily_product_sales;")
     (strL "SELECT * FROM daily_product_sales LIMIT 200") (by decide)⟩

/-! ### Claim C2 -/

/-- C2: whenever a blocked keyword occurs as a standalone word anywhere in
the (trimmed, lower-cased) statement, `sanitize` never returns a statement;
and whenever the statement passes the `select`/`with` prefix check — in
particular for `SELECT 1; DROP TABLE daily_product_sales` — the raised
rejection is the dangerous-statement one produced by the keyword scan.
(The specification groups both rejections as `UnsafeStatementError`.) -/
theorem C2_blocked_keyword_rejected {sql : Str}
    (h : hasBlocked (lowerStr (restrip sql)) = true) :
    (∀ out, sanitize sql ≠ .ok out) ∧
    (startsSelectWith (lowerStr (restrip sql)) = true →
      sanitize sql = .error .dangerous) := by
  constructor
  · intro out hok
    obtain ⟨-, hnb, -⟩ := sanitize_ok_cases hok
    rw [h] at hnb
    simp at hnb
  · intro hsw
    unfold sanitize
    rw [hsw, h]
    rfl

/-- C2 witness: the SELECT-prefixed drop statement is rejected by the
keyword scan. -/
theorem C2_witness :
    hasBlocked (lowerStr (restrip (strL "SELECT 1; DROP TABLE daily_product_sales"))) = true ∧
    (∀ out, sanitize (strL "SELECT 1; DROP TABLE daily_product_sales") ≠ .ok out) ∧
    sanitize (strL "SELECT 1; DROP TABLE daily_product_sales") = .error .dangerous :=
  ⟨by decide, (C2_blocked_keyword_rejected (by decide)).1,
   (C2_blocked_keyword_rejected (by decide)).2 (by decide)⟩

/-! ### Claim C8 -/

/-- C8 counterexample: `sanitize` is not idempotent.  On the input
`select daily_product_sales limit 5 ; ;` the sanitizer succeeds and
returns a statement with a trailing space (the strip order
`strip()` then `strip(";")` exposes it); a second application removes
that space, so the second output differs from the first. -/
theorem C8_counterexample :
    sanitize (strL "select daily_product_sales limit 5 ; ;") =
      .ok (strL "select daily_product_sales limit 5 ") ∧
    sanitize (strL "select daily_product_sales limit 5 ") =
      .ok (strL "select daily_product_sales limit 5") ∧
    strL "select daily_product_sales limit 5" ≠
      strL "select daily_product_sales limit 5 " :=
  ⟨by decide, by decide, by decide⟩

/-- C8 (amended): `sanitize` is idempotent on every input whose output does
not end in whitespace or a semicolon — re-applying it to such an output
returns the output unchanged.  (An output can end in stray whitespace or a
bare semicolon only when the trimmed input has a tail mixing semicolons
and whitespace, as in the counterexample; a second application then trims
that tail further.) -/
theorem C8_sanitize_idempotent_on_clean {sql out : Str} {cl : Nat}
    (h : sanitize sql = .ok out) (hlast : lastOr none out = some cl)
    (hws : isPySpace cl = false) (hsemi : isSemi cl = false) :
    sanitize out = .ok out := by
  obtain ⟨c0, hh, h0ws, h0s⟩ := sanitize_ok_head h
  have hre : restrip out = out := restrip_eq_self hh h0ws h0s hlast hws hsemi
  have henf : enforce_table out = out := by
    unfold enforce_table
    rw [hre, sanitize_ok_table h]
    rw [if_pos rfl]
  unfold sanitize
  rw [hre, sanitize_ok_starts h, sanitize_ok_noBlocked h, sanitize_ok_limitSub h, henf]
  rfl

/-- C8 witness: idempotence on a concrete clean output. -/
theorem C8_witness :
    sanitize (strL "SELECT * FROM daily_product_sales;") =
      .ok (strL "SELECT * FROM daily_product_sales LIMIT 200") ∧
    sanitize (strL "SELECT * FROM daily_product_sales LIMIT 200") =
      .ok (strL "SELECT * FROM daily_product_sales LIMIT 200") :=
  ⟨by decide,
   @C8_sanitize_idempotent_on_clean (strL "SELECT * FROM daily_product_sales;")
     (strL "SELECT * FROM daily_product_sales LIMIT 200") 48
     (by decide) (by decide) (by decide) (by decide)⟩

/-! ### Claim C6 -/

theorem wsSafe_of_all_nonws {t : Str} (h : ∀ c ∈ t, isPySpace c = false) :
    wsSafe t = true := by
  induction t with
  | nil => rfl
  | cons c1 r ih =>
    cases r with
    | nil =>
      unfold wsSafe
      simp [h c1 (by simp)]
    | cons c2 r' =>
      unfold wsSafe
      apply Bool.and_eq_true_iff.mpr
      refine ⟨by simp [h c1 (by simp)], ?_⟩
      apply ih
      intro c hc
      exact h c (List.mem_cons_of_mem c1 hc)

theorem wsSafe_one_space {A B : Str} {m : Nat}
    (hA : ∀ c ∈ A, isPySpace c = false) (hB : ∀ c ∈ B, isPySpace c = false)
    (hm : wgol m = false) (hmw : isPySpace m = false) :
    wsSafe (A ++ 32 :: m :: B) = true := by
  induction A with
  | nil =>
    rw [List.nil_append]
    unfold wsSafe
    apply Bool.and_eq_true_iff.mpr
    refine ⟨by simp [hm], ?_⟩
    apply wsSafe_of_all_nonws
    intro c hc
    rcases List.mem_cons.mp hc with rfl | hc2
    · exact hmw
    · exact hB c hc2
  | cons a A' ih =>
    rw [List.cons_append]
    have hcons : ∃ c2 r, A' ++ 32 :: m :: B = c2 :: r := by
      cases A' with
      | nil => exact ⟨32, m :: B, rfl⟩
      | cons x xs => exact ⟨x, xs ++ 32 :: m :: B, rfl⟩
    obtain ⟨c2, r, hr⟩ := hcons
    rw [hr]
    unfold wsSafe
    apply Bool.and_eq_true_iff.mpr
    constructor
    · simp [hA a (by simp)]
    · rw [← hr]
      exact ih fun c hc => hA c (List.mem_cons_of_mem a hc)

theorem lowerStr_cons (c : Nat) (l : Str) :
    lowerStr (c :: l) = lowerChar c :: lowerStr l := rfl

theorem wsSafe_dtCall {u d : Str} (hu : ∀ c ∈ u, isPySpace c = false)
    (hd : ∀ c ∈ d, isPySpace c = false) :
    wsSafe (lowerStr (dtCall u d)) = true := by
  have hshape : lowerStr (dtCall u d) =
      (strL "date_trunc(" ++ 39 :: lowerStr u ++ [39, 44]) ++ 32 :: 39 ::
        (lowerStr d ++ [39, 41]) := by
    unfold dtCall lowerStr
    simp only [List.map_append, List.map_cons, List.map_nil]
    rw [show List.map lowerChar (strL "date_trunc(") = strL "date_trunc(" from by decide,
      show List.map lowerChar (strL ", ") = [44, 32] from by decide,
      show List.map lowerChar (strL ")") = [41] from by decide,
      show lowerChar qc = 39 from by decide]
    simp [List.append_assoc]
  rw [hshape]
  have hP1 : ∀ x ∈ strL "date_trunc(", isPySpace x = false := by decide
  have hP2 : ∀ x ∈ ([39, 44] : Str), isPySpace x = false := by decide
  have hP3 : ∀ x ∈ ([39, 41] : Str), isPySpace x = false := by decide
  apply wsSafe_one_space
  · intro c hc
    rcases List.mem_append.mp hc with hc1 | hc2
    · rcases List.mem_append.mp hc1 with hc3 | hc4
      · exact hP1 c hc3
      · rcases List.mem_cons.mp hc4 with rfl | hc5
        · decide
        · obtain ⟨c2, hc2m, rfl⟩ := List.mem_map.mp hc5
          rw [isPySpace_lowerChar]
          exact hu c2 hc2m
    · exact hP2 c hc2
  · intro c hc
    rcases List.mem_append.mp hc with hc1 | hc2
    · obtain ⟨c2, hc2m, rfl⟩ := List.mem_map.mp hc1
      rw [isPySpace_lowerChar]
      exact hd c2 hc2m
    · exact hP3 c hc2
  · decide
  · decide

theorem cleanEnds_dtCall (u d : Str) : cleanEnds (dtCall u d) := by
  constructor
  · refine ⟨100, ?_, by decide, by decide⟩
    rfl
  · refine ⟨41, ?_, by decide, by decide⟩
    unfold dtCall
    rw [lastOr_append]
    rfl

/-- C6 counterexample: the Sanitizer performs no date-literal rewrite.  On a
statement containing `date_trunc(<q>quarter<q>, <q>2024-07-01<q>)` it
succeeds and returns the statement completely unchanged: the bare quoted
date literal is still there, and no `cast` appears anywhere in the output
— contradicting the claim that such calls are rewritten to wrap the
literal in an explicit date cast. -/
theorem C6_counterexample :
    sanitize dtCexStmt = .ok dtCexStmt ∧
    containsSub dtCexStmt (dtCall (strL "quarter") (strL "2024-07-01")) = true ∧
    containsSub (lowerStr dtCexStmt) (strL "cast") = false :=
  ⟨by decide, by decide, by decide⟩

/-- C6 (amended): the Sanitizer never rewrites a
`date_trunc(<q>unit<q>, <q>date<q>)` call: whenever such a call (with
whitespace-free unit and date texts) occurs in the trimmed input and
sanitization succeeds, the call text reappears verbatim in the output; the
rest of the statement is subject only to the usual table insertion and
limit appending. -/
theorem C6_date_trunc_call_preserved {sql out unit d : Str}
    (h : sanitize sql = .ok out) (hin : dtCall unit d <:+: restrip sql)
    (hu : ∀ c ∈ unit, isPySpace c = false) (hd : ∀ c ∈ d, isPySpace c = false) :
    dtCall unit d <:+: out :=
  sanitize_ok_infix_preserved h hin (wsSafe_dtCall hu hd) (cleanEnds_dtCall unit d)

/-- C6 witness: the call survives on the concrete scenario statement. -/
theorem C6_witness :
    dtCall (strL "quarter") (strL "2024-07-01") <:+: restrip dtCexStmt ∧
    dtCall (strL "quarter") (strL "2024-07-01") <:+: dtCexStmt :=
  ⟨by decide,
   @C6_date_trunc_call_preserved dtCexStmt dtCexStmt (strL "quarter")
     (strL "2024-07-01") (by decide) (by decide) (by decide) (by decide)⟩

/-! ### Claim C7: the fallback statement and the sanitizer -/

theorem natReprAux_digits :
    ∀ (fuel n : Nat), ∀ c ∈ natReprAux fuel n, isDigitChar c = true := by
  intro fuel
  induction fuel with
  | zero => intro n c hc; simp [natReprAux] at hc
  | succ f ih =>
    intro n c hc
    unfold natReprAux at hc
    split at hc
    · rename_i hn
      simp at hc
      unfold isDigitChar
      simp only [Bool.and_eq_true, decide_eq_true_eq]
      omega
    · rename_i hn
      rcases List.mem_append.mp hc with h1 | h2
      · exact ih (n / 10) c h1
      · simp at h2
        unfold isDigitChar
        simp only [Bool.and_eq_true, decide_eq_true_eq]
        have : n % 10 < 10 := Nat.mod_lt n (by omega)
        omega

theorem natRepr_ne_nil (n : Nat) : natRepr n ≠ [] := by
  unfold natRepr natReprAux
  split
  · simp
  · simp

theorem natRepr_digits (n : Nat) : ∀ c ∈ natRepr n, isDigitChar c = true :=
  natReprAux_digits (n + 1) n

theorem digit_not_space {c : Nat} (h : isDigitChar c = true) : isPySpace c = false := by
  unfold isDigitChar at h
  unfold isPySpace
  simp only [Bool.and_eq_true, decide_eq_true_eq] at h
  simp only [Bool.or_eq_false_iff, decide_eq_false_iff_not]
  omega

theorem digit_not_semi {c : Nat} (h : isDigitChar c = true) : isSemi c = false := by
  unfold isDigitChar at h
  unfold isSemi
  simp only [Bool.and_eq_true, decide_eq_true_eq] at h
  simp only [decide_eq_false_iff_not]
  omega

theorem lowerChar_digit {c : Nat} (h : isDigitChar c = true) : lowerChar c = c := by
  unfold isDigitChar at h
  unfold lowerChar
  simp only [Bool.and_eq_true, decide_eq_true_eq] at h
  rw [if_neg (by simp only [Bool.and_eq_true, decide_eq_true_eq, not_and]; omega)]

theorem lastOr_ne_none {l : Str} (h : l ≠ []) : ∃ c, lastOr none l = some c ∧ c ∈ l := by
  cases hlo : lastOr none l with
  | some c => exact ⟨c, rfl, by
      rcases lastOr_mem hlo with hm | hp
      · exact hm
      · exact absurd hp (by simp)⟩
  | none =>
    exfalso
    apply h
    cases l with
    | nil => rfl
    | cons d r =>
      exfalso
      rw [lastOr_cons] at hlo
      rcases hx : lastOr (some d) r with _ | c
      · -- lastOr with a some seed is never none
        have : ∀ (r' : Str) (d' : Nat), lastOr (some d') r' ≠ none := by
          intro r'
          induction r' with
          | nil => intro d' hc; simp [lastOr] at hc
          | cons e r'' ih => intro d' hc; rw [lastOr_cons] at hc; exact ih e hc
        exact this r d hx
      · rw [hx] at hlo
        simp at hlo

theorem pyStrip_eq_self {l : Str} {c0 cl : Nat}
    (hh : l.head? = some c0) (h0 : isPySpace c0 = false)
    (hl : lastOr none l = some cl) (hlw : isPySpace cl = false) : pyStrip l = l := by
  unfold pyStrip
  rw [dropWhile_eq_self_of_head isPySpace hh h0,
    dropTrailing_eq_self_of_last isPySpace hl hlw]

theorem stripSemi_append_semi {X : Str} {c0 cl : Nat}
    (hh : X.head? = some c0) (h0 : isSemi c0 = false)
    (hl : lastOr none X = some cl) (hls : isSemi cl = false) :
    stripSemi (X ++ [59]) = X := by
  unfold stripSemi
  rw [dropWhile_eq_self_of_head isSemi (by rw [List.head?_append, hh]; rfl) h0]
  unfold dropTrailing
  rw [List.reverse_append]
  have h59 : ([59] : Str).reverse = [59] := rfl
  rw [h59]
  have hstep : List.dropWhile isSemi (59 :: X.reverse) = List.dropWhile isSemi X.reverse := by
    rw [List.dropWhile_cons, if_pos (by decide)]
  have hid : List.dropWhile isSemi X.reverse = X.reverse :=
    dropWhile_eq_self_of_head isSemi (by rw [reverse_head?]; exact hl) hls
  rw [show (59 :: X.reverse : Str) = [59] ++ X.reverse from rfl] at hstep
  rw [hstep, hid, List.reverse_reverse]

theorem Standalone.isInfix {hay pat : Str} (h : Standalone hay pat) : pat <:+: hay := by
  obtain ⟨a, b, heq, -, -⟩ := h
  exact ⟨a, b, heq.symm⟩

theorem blocked_no_digit : ∀ kw ∈ BLOCKED, ∀ c ∈ kw, isDigitChar c = false := by decide

theorem infix_of_infix_append_digits {kw A D : Str}
    (hkw : ∀ c ∈ kw, isDigitChar c = false) (hne : kw ≠ [])
    (hD : ∀ c ∈ D, isDigitChar c = true) (h : kw <:+: A ++ D) : kw <:+: A := by
  obtain ⟨x, y, hxy⟩ := h
  rw [List.append_assoc] at hxy
  have h1take : (A ++ D).take A.length = A := by
    rw [List.take_append_eq_append_take, Nat.sub_self, List.take_zero,
      List.append_nil, List.take_of_length_le (Nat.le_refl _)]
  have h1drop : (A ++ D).drop A.length = D := by
    rw [List.drop_append_eq_append_drop, Nat.sub_self, List.drop_zero,
      List.drop_eq_nil_of_le (Nat.le_refl _), List.nil_append]
  rcases le_or_lt (x.length + kw.length) A.length with hle | hge
  · have h2 : (x ++ (kw ++ y)).take A.length =
        x ++ (kw ++ y.take (A.length - x.length - kw.length)) := by
      rw [List.take_append_eq_append_take,
        List.take_of_length_le (show x.length ≤ A.length by omega),
        List.take_append_eq_append_take,
        List.take_of_length_le (show kw.length ≤ A.length - x.length by omega)]
    have htake : A = x ++ (kw ++ y.take (A.length - x.length - kw.length)) := by
      calc A = (A ++ D).take A.length := h1take.symm
        _ = (x ++ (kw ++ y)).take A.length := by rw [hxy]
        _ = x ++ (kw ++ y.take (A.length - x.length - kw.length)) := h2
    rw [htake]
    exact ⟨x, y.take (A.length - x.length - kw.length), by simp⟩
  · exfalso
    rcases Nat.le_total A.length x.length with hax | hax
    · -- the occurrence lies entirely inside D, whose characters are digits
      have h2 : (x ++ (kw ++ y)).drop A.length = x.drop A.length ++ (kw ++ y) := by
        rw [List.drop_append_eq_append_drop, Nat.sub_eq_zero_of_le hax, List.drop_zero]
      have hDdrop : D = x.drop A.length ++ (kw ++ y) := by
        calc D = (A ++ D).drop A.length := h1drop.symm
          _ = (x ++ (kw ++ y)).drop A.length := by rw [hxy]
          _ = x.drop A.length ++ (kw ++ y) := h2
      cases kw with
      | nil => exact hne rfl
      | cons k ks =>
        have hkmem : k ∈ D := by
          rw [hDdrop]
          exact List.mem_append_right _ (List.mem_append_left _ (by simp))
        have hk1 := hD k hkmem
        rw [hkw k (by simp)] at hk1
        simp at hk1
    · -- the occurrence spans the seam: a character of kw sits at the head of D
      have hj : A.length - x.length < kw.length := by omega
      have h2 : (x ++ (kw ++ y)).drop A.length =
          kw.drop (A.length - x.length) ++ y := by
        rw [List.drop_append_eq_append_drop, List.drop_eq_nil_of_le hax,
          List.nil_append, List.drop_append_eq_append_drop,
          show A.length - x.length - kw.length = 0 from by omega, List.drop_zero]
      have hDdrop : D = kw.drop (A.length - x.length) ++ y := by
        calc D = (A ++ D).drop A.length := h1drop.symm
          _ = (x ++ (kw ++ y)).drop A.length := by rw [hxy]
          _ = kw.drop (A.length - x.length) ++ y := h2
      cases hdj : kw.drop (A.length - x.length) with
      | nil =>
        have hlen := congrArg List.length hdj
        simp at hlen
        omega
      | cons d v =>
        have hdD : d ∈ D := by
          rw [hDdrop, hdj]
          simp
        have hdkw : d ∈ kw := List.mem_of_mem_drop (by rw [hdj]; simp)
        have h1 := hD d hdD
        rw [hkw d hdkw] at h1
        simp at h1

theorem containsSub_append_right {A : Str} {pat : Str} (h : containsSub A pat = true)
    (B : Str) : containsSub (A ++ B) pat = true :=
  (containsSub_iff _ _).mpr (infix_app_right ((containsSub_iff _ _).mp h) B)

theorem fallback_decomp (q : Str) :
    fallback_sql_from_question q =
      (fbHead q ++ natRepr (topnOf q)) ++ strL ";" := by
  unfold fallback_sql_from_question fbHead
  simp [List.append_assoc]

theorem fallback_core (q : Str)
    (hA1 : (strL "select").isPrefixOf (lowerStr (fbHead q)) = true)
    (hA2 : BLOCKED.all (fun kw => !containsSub (lowerStr (fbHead q)) kw) = true)
    (hA3 : containsSub (lowerStr (fbHead q)) TABLE = true)
    (hA4 : containsSub (lowerStr (fbHead q)) (strL "limit") = true)
    (hA5 : (fbHead q).head? = some 83) :
    sanitize (fallback_sql_from_question q) =
      .ok (restrip (fallback_sql_from_question q)) ∧
    fallback_sql_from_question q =
      restrip (fallback_sql_from_question q) ++ strL ";" := by
  have hdec : fallback_sql_from_question q =
      (fbHead q ++ natRepr (topnOf q)) ++ strL ";" := fallback_decomp q
  have hDne : natRepr (topnOf q) ≠ [] := natRepr_ne_nil _
  have hDdig : ∀ c ∈ natRepr (topnOf q), isDigitChar c = true := natRepr_digits _
  have hXhead : (fbHead q ++ natRepr (topnOf q)).head? = some 83 := by
    rw [List.head?_append, hA5]
    rfl
  obtain ⟨cl, hcl, hclmem⟩ := lastOr_ne_none hDne
  have hcldig : isDigitChar cl = true := hDdig cl hclmem
  have hXlast : lastOr none (fbHead q ++ natRepr (topnOf q)) = some cl := by
    rw [lastOr_append, lastOr_of_ne_nil _ none _ hDne, hcl]
  have hre : restrip (fallback_sql_from_question q) =
      fbHead q ++ natRepr (topnOf q) := by
    rw [hdec]
    unfold restrip
    have hps : pyStrip ((fbHead q ++ natRepr (topnOf q)) ++ strL ";") =
        (fbHead q ++ natRepr (topnOf q)) ++ strL ";" := by
      apply pyStrip_eq_self (by rw [List.head?_append, hXhead]; rfl) (by decide)
        (by rw [lastOr_append]; rfl) (by decide)
    rw [hps]
    rw [show strL ";" = [59] from rfl]
    exact stripSemi_append_semi hXhead (by decide) hXlast (digit_not_semi hcldig)
  have hlowX : lowerStr (fbHead q ++ natRepr (topnOf q)) =
      lowerStr (fbHead q) ++ lowerStr (natRepr (topnOf q)) := lowerStr_append _ _
  have hlowDdig : ∀ c ∈ lowerStr (natRepr (topnOf q)), isDigitChar c = true := by
    intro c hc
    obtain ⟨c2, hc2, rfl⟩ := List.mem_map.mp hc
    rw [lowerChar_digit (hDdig c2 hc2)]
    exact hDdig c2 hc2
  have hsw : startsSelectWith (lowerStr (fbHead q ++ natRepr (topnOf q))) = true := by
    apply Bool.or_eq_true_iff.mpr
    left
    apply List.isPrefixOf_iff_prefix.mpr
    rw [hlowX]
    exact prefix_app_right (List.isPrefixOf_iff_prefix.mp hA1) _
  have hnb : hasBlocked (lowerStr (fbHead q ++ natRepr (topnOf q))) = false := by
    cases hB : hasBlocked (lowerStr (fbHead q ++ natRepr (topnOf q))) with
    | false => rfl
    | true =>
      exfalso
      obtain ⟨kw, hkw, hst⟩ := (hasBlocked_iff _).mp hB
      have hinf : kw <:+: lowerStr (fbHead q) ++ lowerStr (natRepr (topnOf q)) := by
        rw [← hlowX]
        exact hst.isInfix
      have hkwA : kw <:+: lowerStr (fbHead q) :=
        infix_of_infix_append_digits (blocked_no_digit kw hkw)
          ((blocked_facts kw hkw).2.1) hlowDdig hinf
      have hfalse := List.all_eq_true.mp hA2 kw hkw
      rw [(containsSub_iff _ _).mpr hkwA] at hfalse
      simp at hfalse
  have hlim : containsSub (lowerStr (fbHead q ++ natRepr (topnOf q)))
      (strL "limit") = true := by
    rw [hlowX]
    exact containsSub_append_right hA4 _
  have htab : containsSub (lowerStr (fbHead q ++ natRepr (topnOf q))) TABLE = true := by
    rw [hlowX]
    exact containsSub_append_right hA3 _
  have hreX : restrip (fbHead q ++ natRepr (topnOf q)) =
      fbHead q ++ natRepr (topnOf q) :=
    restrip_eq_self hXhead (by decide) (by decide) hXlast
      (digit_not_space hcldig) (digit_not_semi hcldig)
  have henf : enforce_table (fbHead q ++ natRepr (topnOf q)) =
      fbHead q ++ natRepr (topnOf q) := by
    unfold enforce_table
    rw [hreX, htab]
    rw [if_pos rfl]
  refine ⟨?_, by rw [hre]; exact hdec⟩
  rw [hre]
  unfold sanitize
  rw [hre, hsw, hnb, hlim, henf]
  rfl

/-- C7: the output of the Heuristic Fallback Generator always passes the
Sanitizer, and the sanitized result is the generated statement itself with
only the trailing statement terminator removed: no keyword rejection, no
table injection, and no `LIMIT` appending occurs. -/
theorem C7_fallback_passes_sanitizer (q : Str) :
    sanitize (fallback_sql_from_question q) =
      .ok (restrip (fallback_sql_from_question q)) ∧
    fallback_sql_from_question q =
      restrip (fallback_sql_from_question q) ++ strL ";" := by
  cases hcat : categoryOf (lowerStr q) with
  | none =>
    cases hq : quarterOf (lowerStr q) with
    | none =>
      exact fallback_core q
        (by unfold fbHead whereSqlOf whereClausesOf; rw [hcat, hq]; decide)
        (by unfold fbHead whereSqlOf whereClausesOf; rw [hcat, hq]; decide)
        (by unfold fbHead whereSqlOf whereClausesOf; rw [hcat, hq]; decide)
        (by unfold fbHead whereSqlOf whereClausesOf; rw [hcat, hq]; decide)
        (by unfold fbHead whereSqlOf whereClausesOf; rw [hcat, hq]; decide)
    | some p =>
      have hpm : p ∈ QUARTER_WINDOWS := List.mem_of_find?_eq_some hq
      fin_cases hpm <;>
        exact fallback_core q
          (by unfold fbHead whereSqlOf whereClausesOf; rw [hcat, hq]; decide)
          (by unfold fbHead whereSqlOf whereClausesOf; rw [hcat, hq]; decide)
          (by unfold fbHead whereSqlOf whereClausesOf; rw [hcat, hq]; decide)
          (by unfold fbHead whereSqlOf whereClausesOf; rw [hcat, hq]; decide)
          (by unfold fbHead whereSqlOf whereClausesOf; rw [hcat, hq]; decide)
  | some c =>
    have hcm : c ∈ CATEGORY_TOKENS := List.mem_of_find?_eq_some hcat
    fin_cases hcm <;>
    · cases hq : quarterOf (lowerStr q) with
      | none =>
        exact fallback_core q
          (by unfold fbHead whereSqlOf whereClausesOf; rw [hcat, hq]; decide)
          (by unfold fbHead whereSqlOf whereClausesOf; rw [hcat, hq]; decide)
          (by unfold fbHead whereSqlOf whereClausesOf; rw [hcat, hq]; decide)
          (by unfold fbHead whereSqlOf whereClausesOf; rw [hcat, hq]; decide)
          (by unfold fbHead whereSqlOf whereClausesOf; rw [hcat, hq]; decide)
      | some p =>
        have hpm : p ∈ QUARTER_WINDOWS := List.mem_of_find?_eq_some hq
        fin_cases hpm <;>
          exact fallback_core q
            (by unfold fbHead whereSqlOf whereClausesOf; rw [hcat, hq]; decide)
            (by unfold fbHead whereSqlOf whereClausesOf; rw [hcat, hq]; decide)
            (by unfold fbHead whereSqlOf whereClausesOf; rw [hcat, hq]; decide)
            (by unfold fbHead whereSqlOf whereClausesOf; rw [hcat, hq]; decide)
            (by unfold fbHead whereSqlOf whereClausesOf; rw [hcat, hq]; decide)

/-! ### Claim C9 -/

/-- C9 counterexample: for the Scenario A question with the provider
unavailable, the pipeline's fallback statement does not equal the
specification's claimed statement even modulo formatting: the code emits
`CAST(day AS DATE) BETWEEN ...` where the claim writes `day BETWEEN ...`. -/
theorem C9_counterexample :
    generate_sql_from_question qA none =
      .ok (restrip (fallback_sql_from_question qA), true) ∧
    normFmt (restrip (fallback_sql_from_question qA)) ≠ normFmt claimedA :=
  ⟨by decide, by decide⟩

/-- C9 (amended): for the Scenario A question with the provider
unavailable, the pipeline's fallback statement equals, modulo formatting,
`SELECT product_title, category, SUM(units) AS units, SUM(revenue) AS
revenue FROM daily_product_sales WHERE category = <q>electronics<q> AND
CAST(day AS DATE) BETWEEN DATE <q>2024-07-01<q> AND DATE <q>2024-09-30<q>
GROUP BY product_title, category ORDER BY revenue DESC LIMIT 5;`. -/
theorem C9_scenarioA_fallback :
    generate_sql_from_question qA none =
      .ok (restrip (fallback_sql_from_question qA), true) ∧
    normFmt (restrip (fallback_sql_from_question qA)) = normFmt amendedA :=
  ⟨by decide, by decide⟩

/-! ### Claim C10 -/

theorem categoryOf_earliest (q : Str) {f : Str} (hf : f ∈ CATEGORY_TOKENS)
    (hpf : containsSub (lowerStr q) f = true) :
    ∃ e, categoryOf (lowerStr q) = some e ∧ containsSub (lowerStr q) e = true ∧
      ∀ g ∈ CATEGORY_TOKENS, containsSub (lowerStr q) g = true →
        List.indexOf e CATEGORY_TOKENS ≤ List.indexOf g CATEGORY_TOKENS := by
  by_cases h1 : containsSub (lowerStr q) (strL "electronics") = true
  · refine ⟨strL "electronics", ?_, h1, ?_⟩
    · unfold categoryOf CATEGORY_TOKENS
      simp [List.find?, h1]
    · intro g hg hpg
      have : List.indexOf (strL "electronics") CATEGORY_TOKENS = 0 := by decide
      rw [this]
      exact Nat.zero_le _
  · by_cases h2 : containsSub (lowerStr q) (strL "home") = true
    · refine ⟨strL "home", ?_, h2, ?_⟩
      · unfold categoryOf CATEGORY_TOKENS
        simp [List.find?, h1, h2]
      · intro g hg hpg
        fin_cases hg
        · exact absurd hpg h1
        · decide
        · decide
        · decide
        · decide
    · by_cases h3 : containsSub (lowerStr q) (strL "beauty") = true
      · refine ⟨strL "beauty", ?_, h3, ?_⟩
        · unfold categoryOf CATEGORY_TOKENS
          simp [List.find?, h1, h2, h3]
        · intro g hg hpg
          fin_cases hg
          · exact absurd hpg h1
          · exact absurd hpg h2
          · decide
          · decide
          · decide
      · by_cases h4 : containsSub (lowerStr q) (strL "sports") = true
        · refine ⟨strL "sports", ?_, h4, ?_⟩
          · unfold categoryOf CATEGORY_TOKENS
            simp [List.find?, h1, h2, h3, h4]
          · intro g hg hpg
            fin_cases hg
            · exact absurd hpg h1
            · exact absurd hpg h2
            · exact absurd hpg h3
            · decide
            · decide
        · by_cases h5 : containsSub (lowerStr q) (strL "toys") = true
          · refine ⟨strL "toys", ?_, h5, ?_⟩
            · unfold categoryOf CATEGORY_TOKENS
              simp [List.find?, h1, h2, h3, h4, h5]
            · intro g hg hpg
              fin_cases hg
              · exact absurd hpg h1
              · exact absurd hpg h2
              · exact absurd hpg h3
              · exact absurd hpg h4
              · decide
          · exfalso
            fin_cases hf
            · exact absurd hpf h1
            · exact absurd hpf h2
            · exact absurd hpf h3
            · exact absurd hpf h4
            · exact absurd hpf h5

/-- C10: the fallback generator emits at most one category predicate, and
when several category names occur in the question it always filters on the
one that comes earliest in the fixed vocabulary order electronics, home,
beauty, sports, toys — regardless of which name appears first in the
question text. -/
theorem C10_category_selection (q : Str) :
    ((whereClausesOf q).countP (fun w => (strL "category = ").isPrefixOf w) ≤ 1) ∧
    (∀ c1 c2 : Str, c1 ∈ CATEGORY_TOKENS → c2 ∈ CATEGORY_TOKENS →
      containsSub (lowerStr q) c1 = true → containsSub (lowerStr q) c2 = true →
      c1 ≠ c2 →
      ∃ e, categoryOf (lowerStr q) = some e ∧ containsSub (lowerStr q) e = true ∧
        ∀ g ∈ CATEGORY_TOKENS, containsSub (lowerStr q) g = true →
          List.indexOf e CATEGORY_TOKENS ≤ List.indexOf g CATEGORY_TOKENS) := by
  constructor
  · unfold whereClausesOf
    rw [List.countP_append]
    have h1 : (match categoryOf (lowerStr q) with
        | some c => [strL "category = " ++ qc :: c ++ [qc]]
        | none => ([] : List Str)).countP
          (fun w => (strL "category = ").isPrefixOf w) ≤ 1 := by
      cases categoryOf (lowerStr q) with
      | none => simp [List.countP_nil]
      | some c =>
        rw [List.countP_cons, List.countP_nil]
        split <;> omega
    have h2 : (match quarterOf (lowerStr q) with
        | some p => [strL "CAST(day AS DATE) BETWEEN DATE " ++ qc :: p.2.1 ++ [qc]
            ++ strL " AND DATE " ++ qc :: p.2.2 ++ [qc]]
        | none => ([] : List Str)).countP
          (fun w => (strL "category = ").isPrefixOf w) = 0 := by
      cases quarterOf (lowerStr q) with
      | none => rfl
      | some p =>
        rw [List.countP_cons, List.countP_nil]
        rw [show ((strL "category = ").isPrefixOf
            (strL "CAST(day AS DATE) BETWEEN DATE " ++ qc :: p.2.1 ++ [qc]
              ++ strL " AND DATE " ++ qc :: p.2.2 ++ [qc])) = false from rfl]
        simp
    omega
  · intro c1 c2 hc1 hc2 hp1 hp2 hne
    exact categoryOf_earliest q hc1 hp1

/-- C10 witness: in `home electronics` both category names occur, `home`
first in the text; the generator still picks `electronics`, the earliest
in the vocabulary order. -/
theorem C10_witness :
    categoryOf (lowerStr (strL "home electronics")) = some (strL "electronics") ∧
    ((whereClausesOf (strL "home electronics")).countP
        (fun w => (strL "category = ").isPrefixOf w) ≤ 1) ∧
    (∃ e, categoryOf (lowerStr (strL "home electronics")) = some e ∧
      containsSub (lowerStr (strL "home electronics")) e = true ∧
      ∀ g ∈ CATEGORY_TOKENS,
        containsSub (lowerStr (strL "home electronics")) g = true →
          List.indexOf e CATEGORY_TOKENS ≤ List.indexOf g CATEGORY_TOKENS) :=
  ⟨by decide, (C10_category_selection (strL "home electronics")).1,
   (C10_category_selection (strL "home electronics")).2 (strL "home")
     (strL "electronics") (by decide) (by decide) (by decide) (by decide)
     (by decide)⟩

/-! ### Claim C5 -/

theorem mem_iff_singleton_sub {a : Nat} {l : Str} : a ∈ l ↔ [a] <:+: l := by
  constructor
  · intro h
    obtain ⟨s, t, hst⟩ := List.append_of_mem h
    exact ⟨s, t, by rw [hst]; simp⟩
  · intro h
    exact h.subset (by simp)

theorem fencedJson_none {text : Str} (h : containsSub text [96] = false) :
    fencedJson text = none := by
  have hmem : ∀ c ∈ text, c ≠ 96 := by
    intro c hc he
    subst he
    rw [(containsSub_iff _ _).mpr (mem_iff_singleton_sub.mp hc)] at h
    simp at h
  clear h
  induction text with
  | nil => rfl
  | cons c rest ih =>
    unfold fencedJson fencedTry
    have hpre : fenceTag.isPrefixOf (c :: rest) = false := by
      cases hp : fenceTag.isPrefixOf (c :: rest) with
      | false => rfl
      | true =>
        exfalso
        obtain ⟨t, ht⟩ := List.isPrefixOf_iff_prefix.mp hp
        have h96 : (fenceTag ++ t).head? = some 96 := by
          rw [List.head?_append]
          rfl
        have hc : c = 96 := by
          have hhd := congrArg List.head? ht
          rw [h96] at hhd
          simpa using hhd.symm
        exact hmem c (by simp) hc
    rw [hpre]
    simp only [Bool.false_eq_true, if_false]
    exact ih fun c2 hc2 => hmem c2 (List.mem_cons_of_mem c hc2)

theorem braceSpan_none {text : Str} (h : containsSub text [123] = false) :
    braceSpan text = none := by
  have h2 : containsSub text [lbrace] = false := h
  have hfind : findSub [lbrace] text = none := by
    unfold containsSub at h2
    cases hf : findSub [lbrace] text with
    | none => rfl
    | some p =>
      rw [hf] at h2
      simp at h2
  unfold braceSpan
  rw [hfind]

/-- C5 counterexample: a plain-prose review response does not produce the
claimed `reasoning`/`ok`/`fixed_sql` verdict.  `extract_json` returns the
single-key dict `raw` holding the raw text instead. -/
theorem C5_counterexample :
    extract_json (fun _ => none)
        (strL "The query looks wrong because revenue is not summed") =
      .pdict [(strL "raw",
        .pstr (strL "The query looks wrong because revenue is not summed"))] ∧
    pyKeys (extract_json (fun _ => none)
        (strL "The query looks wrong because revenue is not summed")) ≠
      [strL "reasoning", strL "ok", strL "fixed_sql"] :=
  ⟨rfl, by decide⟩

/-- C5 (amended): for every review-model response that is plain prose — no
backtick, no opening brace, and rejected by the JSON parser — the produced
verdict is the single-key dict `raw: <that prose>`, not the claimed
`reasoning`/`ok`/`fixed_sql` object. -/
theorem C5_raw_fallback_verdict (loads : Str → Option PyVal) (text : Str)
    (hbt : containsSub text [96] = false) (hbr : containsSub text [123] = false)
    (hload : loads text = none) :
    extract_json loads text = .pdict [(strL "raw", .pstr text)] := by
  unfold extract_json
  rw [fencedJson_none hbt, braceSpan_none hbr, hload]

/-- C5 witness: the degraded verdict on a concrete plain-prose response. -/
theorem C5_witness :
    containsSub (strL "no json here") [96] = false ∧
    containsSub (strL "no json here") [123] = false ∧
    extract_json (fun _ => none) (strL "no json here") =
      .pdict [(strL "raw", .pstr (strL "no json here"))] :=
  ⟨by decide, by decide,
   C5_raw_fallback_verdict (fun _ => none) (strL "no json here")
     (by decide) (by decide) rfl⟩

/-! ### Claim C4 -/

/-- C4 counterexample: a provider error in the review-model call is NOT
absorbed into a degraded verdict — it propagates out of the pipeline as an
error, so the caller gets no review verdict at all.  Here execution of the
direct SQL succeeds and the review call raises. -/
theorem C4_counterexample :
    (executeT (strL "SELECT * FROM daily_product_sales") none
      (fun _ => (Except.ok 0 : Except Nat Nat))
      (fun _ _ => (Except.error 7 : Except Nat Str))
      (fun _ => none) (fun _ => none)).1 =
      Except.error (PipelineError.reviewErr 7) := rfl

/-- `_is_sql` only accepts statements with a nonempty strip. -/
theorem is_sql_ne_empty {q : Str} (h : is_sql q = true) :
    (pyStrip q).isEmpty = false := by
  cases hq : pyStrip q with
  | cons c r => rfl
  | nil =>
    exfalso
    unfold is_sql startsSelectWith at h
    rw [hq] at h
    simp [lowerStr, List.isPrefixOf, strL] at h

/-- C4 (amended): the review stage yields a verdict object whenever the
review-model call returns text: unparseable output is absorbed by
`extract_json` (which never fails) into a — possibly degraded — verdict,
and on the direct-SQL path the pipeline then returns that verdict in its
response.  A provider error in the review call, by contrast, is NOT
absorbed: it propagates to the caller as an error (see the
counterexample). -/
theorem C4_review_verdict {ε ρ γ : Type} (q sql txt : Str) (rows : ρ)
    (execO : Str → Except ε ρ) (revLLM : Str → Str → Except γ Str)
    (loads : Str → Option PyVal) (chartO : ρ → Option PyVal)
    (his : is_sql q = true) (hsan : sanitize q = .ok sql)
    (hexec : execO sql = .ok rows)
    (hrev : revLLM (strL "Direct SQL execution") sql = .ok txt) :
    review_sql_payload revLLM loads (strL "Direct SQL execution") sql =
      .ok (extract_json loads txt) ∧
    (executeT q none execO revLLM loads chartO).1 =
      .ok ⟨sql, rows, extract_json loads txt, chartO rows⟩ := by
  have hpay : review_sql_payload revLLM loads (strL "Direct SQL execution") sql =
      .ok (extract_json loads txt) := by
    unfold review_sql_payload
    rw [show (pyStrip (strL "Direct SQL execution")).isEmpty = false from by decide]
    simp only [Bool.false_eq_true, if_false]
    rw [hrev]
  refine ⟨hpay, ?_⟩
  unfold executeT
  rw [is_sql_ne_empty his]
  simp only [Bool.false_eq_true, if_false]
  rw [his]
  simp only [if_true]
  rw [hsan]
  simp only [Except.map]
  rw [hexec, hpay]

/-- C4 witness: a concrete run through the direct-SQL path in which the
review model returns unparseable prose and the response still carries a
(degraded) verdict. -/
theorem C4_witness :
    is_sql (strL "SELECT * FROM daily_product_sales") = true ∧
    (executeT (strL "SELECT * FROM daily_product_sales") none
      (fun _ => (Except.ok 0 : Except Nat Nat))
      (fun _ _ => (Except.ok (strL "not json") : Except Nat Str))
      (fun _ => none) (fun _ => none)).1 =
      .ok ⟨strL "SELECT * FROM daily_product_sales LIMIT 200", 0,
        extract_json (fun _ => none) (strL "not json"), none⟩ :=
  ⟨by decide,
   (@C4_review_verdict Nat Nat Nat (strL "SELECT * FROM daily_product_sales")
     (strL "SELECT * FROM daily_product_sales LIMIT 200") (strL "not json") 0
     (fun _ => Except.ok 0) (fun _ _ => Except.ok (strL "not json"))
     (fun _ => none) (fun _ => none)
     (by decide) (by decide) rfl rfl).2⟩

/-! ### Claim C3 -/

/-- C3: the retry policy of `/execute`.  (a) When the statement came from
the model path (the input was not direct SQL and the fallback had not been
used) and execution fails, the pipeline hands exactly the model statement
and then the sanitized heuristic-fallback statement to the engine — one
retry — and if that retry also fails the execution error is surfaced.
(b) A direct-SQL statement is never retried: its execution error is
surfaced immediately and the engine saw only that statement.  (c) A
statement that was already the fallback is never retried either. -/
theorem C3_execute_retry_policy {ε ρ γ : Type} (q : Str) (modelSql : Option Str)
    (execO : Str → Except ε ρ) (revLLM : Str → Str → Except γ Str)
    (loads : Str → Option PyVal) (chartO : ρ → Option PyVal)
    (hne : (pyStrip q).isEmpty = false) :
    (∀ msql fsql e, modelSql = some msql → is_sql q = false →
      execO msql = .error e →
      sanitize (fallback_sql_from_question q) = .ok fsql →
      (executeT q modelSql execO revLLM loads chartO).2 = [msql, fsql] ∧
      (∀ e2, execO fsql = .error e2 →
        (executeT q modelSql execO revLLM loads chartO).1 =
          .error (.execErr e2))) ∧
    (∀ sql e, is_sql q = true → sanitize q = .ok sql → execO sql = .error e →
      (executeT q modelSql execO revLLM loads chartO).1 = .error (.execErr e) ∧
      (executeT q modelSql execO revLLM loads chartO).2 = [sql]) ∧
    (∀ fsql e, modelSql = none → is_sql q = false →
      sanitize (fallback_sql_from_question q) = .ok fsql →
      execO fsql = .error e →
      (executeT q modelSql execO revLLM loads chartO).1 = .error (.execErr e) ∧
      (executeT q modelSql execO revLLM loads chartO).2 = [fsql]) := by
  refine ⟨?_, ?_, ?_⟩
  · intro msql fsql e hms his hexec hfb
    subst hms
    constructor
    · unfold executeT
      simp only [hne, his, hexec, hfb, generate_sql_from_question,
        Bool.false_eq_true, if_false, Bool.not_false, Bool.and_self, if_true]
      cases hf2 : execO fsql with
      | ok rows =>
        cases hr : review_sql_payload revLLM loads q fsql with
        | ok v => rfl
        | error g => rfl
      | error e2 => rfl
    · intro e2 he2
      unfold executeT
      simp only [hne, his, hexec, hfb, he2, generate_sql_from_question,
        Bool.false_eq_true, if_false, Bool.not_false, Bool.and_self, if_true]
  · intro sql e his hsan hexec
    unfold executeT
    simp only [hne, his, hsan, hexec, Except.map, Bool.false_eq_true, if_false,
      if_true, Bool.not_true, Bool.false_and]
    refine ⟨?_, ?_⟩ <;> first | rfl | trivial
  · intro fsql e hms his hfb hexec
    subst hms
    have hg : generate_sql_from_question q none = .ok (fsql, true) := by
      unfold generate_sql_from_question
      rw [hfb]
    unfold executeT
    rw [hne]
    simp only [Bool.false_eq_true, if_false]
    rw [his]
    simp only [Bool.false_eq_true, if_false]
    rw [hg]
    dsimp only
    rw [hexec]
    dsimp only
    simp only [Bool.not_false, Bool.not_true, Bool.and_false,
      Bool.false_eq_true, if_false]
    refine ⟨?_, ?_⟩ <;> first | rfl | trivial

/-- Witness for C3 at a concrete question: the engine rejects both the model
statement and the sanitized fallback, the trace shows exactly one retry, and
the second execution error is surfaced. -/
theorem C3_witness :
    (pyStrip (strL "Top 3 best sellers")).isEmpty = false ∧
    (executeT (strL "Top 3 best sellers")
        (some (strL "select broken from daily_product_sales limit 1"))
        (fun _ => (Except.error 0 : Except Nat Nat))
        (fun _ _ => (Except.ok [] : Except Nat Str))
        (fun _ => (none : Option PyVal)) (fun _ => (none : Option PyVal))).2 =
      [strL "select broken from daily_product_sales limit 1",
       strL "SELECT product_title, category, SUM(units) AS units, SUM(revenue) AS revenue\nFROM daily_product_sales\n\nGROUP BY product_title, category\nORDER BY revenue DESC\nLIMIT 3"] ∧
    (executeT (strL "Top 3 best sellers")
        (some (strL "select broken from daily_product_sales limit 1"))
        (fun _ => (Except.error 0 : Except Nat Nat))
        (fun _ _ => (Except.ok [] : Except Nat Str))
        (fun _ => (none : Option PyVal)) (fun _ => (none : Option PyVal))).1 =
      Except.error (PipelineError.execErr 0) := by
  have h := C3_execute_retry_policy (strL "Top 3 best sellers")
    (some (strL "select broken from daily_product_sales limit 1"))
    (fun _ => (Except.error 0 : Except Nat Nat))
    (fun _ _ => (Except.ok [] : Except Nat Str))
    (fun _ => (none : Option PyVal)) (fun _ => (none : Option PyVal))
    (by decide)
  have ha := h.1 (strL "select broken from daily_product_sales limit 1")
    (strL "SELECT product_title, category, SUM(units) AS units, SUM(revenue) AS revenue\nFROM daily_product_sales\n\nGROUP BY product_title, category\nORDER BY revenue DESC\nLIMIT 3")
    0 rfl (by decide) rfl (by decide)
  exact ⟨by decide, ha.1, ha.2 0 rfl⟩
